import Mathlib

/-!
Verification of the staged-overwrite file-transfer core (`sftpovw/fs.py`).

The filesystem visible to one protocol invocation is modelled as an
association list from path strings to byte contents.  Every remote
primitive the put strategies issue (`sftp.stat`, `sftp.putfo`,
`sftp.posix_rename`, `sftp.unlink`) is an `Op`; each `put_safeN` is
translated into the exact op sequence the Python method performs, so that
completed runs, interrupted runs and mid-write crash states can all be
reasoned about.  Randomness of `secrets.token_hex` is modelled by an
explicit oracle `toks : Nat → Str` consumed at increasing indices.
-/

namespace Sftpovw

/-- Path and token strings, as character lists. -/
abbrev Str := List Char

/-- File contents: a byte sequence. -/
abbrev Bytes := List Nat

/-- The (remote or local) filesystem: an association list, newest entry first. -/
abbrev FS := List (Str × Bytes)

/-- Content stored at path `p`, if any. -/
def lookupFS : FS → Str → Option Bytes
  | [], _ => none
  | (q, c) :: rest, p => if q = p then some c else lookupFS rest p

/-- Remove path `p`. -/
def eraseFS (fs : FS) (p : Str) : FS :=
  fs.filter (fun e => decide (e.1 ≠ p))

/-- Create or overwrite path `p` with content `c`. -/
def insertFS (fs : FS) (p : Str) (c : Bytes) : FS :=
  (p, c) :: eraseFS fs p

/-- `FS.exists` of the source: stat and catch file-not-found. -/
def existsFS (fs : FS) (p : Str) : Bool :=
  (lookupFS fs p).isSome

@[simp] theorem lookupFS_nil (p : Str) : lookupFS [] p = none := rfl

@[simp] theorem lookupFS_cons (q : Str) (c : Bytes) (rest : FS) (p : Str) :
    lookupFS ((q, c) :: rest) p = if q = p then some c else lookupFS rest p := rfl

theorem lookupFS_eraseFS (fs : FS) (p q : Str) :
    lookupFS (eraseFS fs p) q = if p = q then none else lookupFS fs q := by
  induction fs with
  | nil => simp [eraseFS]
  | cons e rest ih =>
    obtain ⟨r, c⟩ := e
    by_cases hrp : r = p
    · subst hrp
      by_cases hpq : r = q
      · subst hpq
        simp [eraseFS, lookupFS] at ih ⊢
        simpa using ih
      · simp [eraseFS, lookupFS, hpq] at ih ⊢
        simpa [hpq] using ih
    · by_cases hrq : r = q
      · subst hrq
        have hpr : ¬ p = r := fun h => hrp h.symm
        simp [eraseFS, lookupFS, hrp, hpr]
      · simp [eraseFS, lookupFS, hrp, hrq] at ih ⊢
        exact ih

theorem lookupFS_insertFS (fs : FS) (p : Str) (c : Bytes) (q : Str) :
    lookupFS (insertFS fs p c) q = if p = q then some c else lookupFS fs q := by
  by_cases h : p = q
  · simp [insertFS, lookupFS, h]
  · simp [insertFS, lookupFS, h, lookupFS_eraseFS]

@[simp] theorem lookupFS_insertFS_self (fs : FS) (p : Str) (c : Bytes) :
    lookupFS (insertFS fs p c) p = some c := by
  simp [lookupFS_insertFS]

theorem lookupFS_insertFS_ne (fs : FS) (p : Str) (c : Bytes) (q : Str) (h : p ≠ q) :
    lookupFS (insertFS fs p c) q = lookupFS fs q := by
  simp [lookupFS_insertFS, h]

@[simp] theorem lookupFS_eraseFS_self (fs : FS) (p : Str) :
    lookupFS (eraseFS fs p) p = none := by
  simp [lookupFS_eraseFS]

theorem lookupFS_eraseFS_ne (fs : FS) (p q : Str) (h : p ≠ q) :
    lookupFS (eraseFS fs p) q = lookupFS fs q := by
  simp [lookupFS_eraseFS, h]

/-- One remote primitive issued by a put strategy. -/
inductive Op where
  | stat (p : Str)
  | write (p : Str) (c : Bytes)
  | rename (a b : Str)
  | unlink (p : Str)
deriving DecidableEq, Repr

/-- Effect of one primitive; `none` is a raised remote error
(`posix_rename`/`unlink` on a missing path). -/
def applyOp (fs : FS) : Op → Option FS
  | .stat _ => some fs
  | .write p c => some (insertFS fs p c)
  | .rename a b =>
    match lookupFS fs a with
    | some v => some (insertFS (eraseFS fs a) b v)
    | none => none
  | .unlink p => if existsFS fs p then some (eraseFS fs p) else none

/-- Run a sequence of primitives to completion. -/
def runOps : FS → List Op → Option FS
  | fs, [] => some fs
  | fs, op :: rest =>
    match applyOp fs op with
    | some fs' => runOps fs' rest
    | none => none

/-- Run a sequence, stopping at the first failing primitive; the flag
records whether every step succeeded. -/
def runUpTo : FS → List Op → FS × Bool
  | fs, [] => (fs, true)
  | fs, op :: rest =>
    match applyOp fs op with
    | some fs' => runUpTo fs' rest
    | none => (fs, false)

theorem runOps_append (fs : FS) (l₁ l₂ : List Op) :
    runOps fs (l₁ ++ l₂) = (runOps fs l₁).bind (fun fs' => runOps fs' l₂) := by
  induction l₁ generalizing fs with
  | nil => simp [runOps]
  | cons op rest ih =>
    simp only [List.cons_append, runOps]
    cases applyOp fs op with
    | some fs' => simpa using ih fs'
    | none => rfl

theorem runUpTo_ok_iff (fs : FS) (ops : List Op) (fs' : FS) :
    runUpTo fs ops = (fs', true) ↔ runOps fs ops = some fs' := by
  induction ops generalizing fs with
  | nil =>
    constructor
    · intro h; cases h; rfl
    · intro h; cases h; rfl
  | cons op rest ih =>
    simp only [runUpTo, runOps]
    cases applyOp fs op with
    | some fs₁ => exact ih fs₁
    | none =>
      constructor
      · intro h; cases h
      · intro h; cases h

/-- `Path.with_suffix(path.suffix + "." + token)`: the temp candidate is the
target's full string plus a dot plus the random token. -/
def tmpName (dest tok : Str) : Str := dest ++ '.' :: tok

theorem tmpName_ne (dest tok : Str) : tmpName dest tok ≠ dest := by
  intro h
  have := congrArg List.length h
  simp [tmpName] at this

theorem tmpName_inj (dest a b : Str) (h : tmpName dest a = tmpName dest b) : a = b := by
  have h' := List.append_cancel_left h
  exact List.cons_injective h'

/-- `FS.tmpfile`: up to `fuel` attempts; each attempt draws the next oracle
token, stats the candidate, and returns the first absent one together with
the next oracle index and the stat probes performed.  `none` is the
`cannot create tmpfile?` exception. -/
def tmpfileGo (fs : FS) (dest : Str) (toks : Nat → Str) : Nat → Nat → Option (Str × Nat × List Op)
  | _, 0 => none
  | i, fuel + 1 =>
    let name := tmpName dest (toks i)
    if existsFS fs name then
      match tmpfileGo fs dest toks (i + 1) fuel with
      | some (n, j, pr) => some (n, j, Op.stat name :: pr)
      | none => none
    else
      some (name, i + 1, [Op.stat name])

/-- `FS.tmpfile` with the source's 10 attempts. -/
def tmpfile (fs : FS) (dest : Str) (toks : Nat → Str) (i : Nat) : Option (Str × Nat × List Op) :=
  tmpfileGo fs dest toks i 10

theorem tmpfileGo_ok (fs : FS) (dest : Str) (toks : Nat → Str) :
    ∀ fuel i n j pr, tmpfileGo fs dest toks i fuel = some (n, j, pr) →
      existsFS fs n = false ∧ ∃ k, i ≤ k ∧ k < i + fuel ∧ n = tmpName dest (toks k) ∧ j = k + 1 := by
  intro fuel
  induction fuel with
  | zero => intro i n j pr h; simp [tmpfileGo] at h
  | succ fuel ih =>
    intro i n j pr h
    simp only [tmpfileGo] at h
    by_cases hex : existsFS fs (tmpName dest (toks i)) = true
    · rw [if_pos hex] at h
      cases hrec : tmpfileGo fs dest toks (i + 1) fuel with
      | none => rw [hrec] at h; cases h
      | some v =>
        obtain ⟨n', j', pr'⟩ := v
        rw [hrec] at h
        cases h
        obtain ⟨hfresh, k, hk1, hk2, hk3, hk4⟩ := ih (i + 1) _ _ _ hrec
        exact ⟨hfresh, k, by omega, by omega, hk3, hk4⟩
    · rw [if_neg hex] at h
      cases h
      refine ⟨by simpa using hex, i, le_refl i, by omega, rfl, rfl⟩

theorem tmpfileGo_probes (fs : FS) (dest : Str) (toks : Nat → Str) :
    ∀ fuel i n j pr, tmpfileGo fs dest toks i fuel = some (n, j, pr) →
      ∀ op ∈ pr, ∃ q, op = Op.stat q := by
  intro fuel
  induction fuel with
  | zero => intro i n j pr h; simp [tmpfileGo] at h
  | succ fuel ih =>
    intro i n j pr h
    simp only [tmpfileGo] at h
    by_cases hex : existsFS fs (tmpName dest (toks i)) = true
    · rw [if_pos hex] at h
      cases hrec : tmpfileGo fs dest toks (i + 1) fuel with
      | none => rw [hrec] at h; cases h
      | some v =>
        obtain ⟨n', j', pr'⟩ := v
        rw [hrec] at h
        cases h
        intro op hop
        rcases List.mem_cons.mp hop with h1 | h2
        · exact ⟨_, h1⟩
        · exact ih (i + 1) _ _ _ hrec op h2
    · rw [if_neg hex] at h
      cases h
      intro op hop
      rcases List.mem_cons.mp hop with h1 | h2
      · exact ⟨_, h1⟩
      · simp at h2

/-- Running a list of pure stat probes changes nothing. -/
theorem runOps_allStat (fs : FS) (ops : List Op)
    (h : ∀ op ∈ ops, ∃ q, op = Op.stat q) : runOps fs ops = some fs := by
  induction ops with
  | nil => rfl
  | cons op rest ih =>
    obtain ⟨q, hq⟩ := h op (List.mem_cons_self op rest)
    subst hq
    simp only [runOps, applyOp]
    exact ih (fun o ho => h o (List.mem_cons_of_mem _ ho))

/-! ### The five put strategies

Each `putNOps` computes, from the state seen at call time, the exact
primitive sequence `put_safeN` issues (`none` = the temp-name generator
gave up).  All decisions (`self.exists`, temp names) are taken before any
mutating primitive runs, exactly as in the source. -/

/-- `put_safe0`: put-overwrite. -/
def put0Ops (dest : Str) (P : Bytes) : List Op := [Op.write dest P]

/-- `put_safe1`: remove if present, then put. -/
def put1Ops (fs : FS) (dest : Str) (P : Bytes) : List Op :=
  Op.stat dest :: (if existsFS fs dest then [Op.unlink dest] else []) ++ [Op.write dest P]

/-- `put_safe2`: generate temp; if destination exists rename it to the temp;
put directly to the destination; delete the temp. -/
def put2Ops (fs : FS) (dest : Str) (P : Bytes) (toks : Nat → Str) (i : Nat) :
    Option (List Op) :=
  (tmpfile fs dest toks i).map fun v =>
    v.2.2 ++ [Op.stat dest] ++
      (if existsFS fs dest then [Op.rename dest v.1] else []) ++
      [Op.write dest P] ++
      (if existsFS fs dest then [Op.unlink v.1] else [])

/-- `put_safe3`: generate temp; put to temp; rename temp to destination. -/
def put3Ops (fs : FS) (dest : Str) (P : Bytes) (toks : Nat → Str) (i : Nat) :
    Option (List Op) :=
  (tmpfile fs dest toks i).map fun v =>
    v.2.2 ++ [Op.write v.1 P, Op.rename v.1 dest]

/-- `put_safe4`: check existence; generate temp1 and temp2; put to temp1;
if the destination existed rename it to temp2; rename temp1 to the
destination; delete temp2. -/
def put4Ops (fs : FS) (dest : Str) (P : Bytes) (toks : Nat → Str) (i : Nat) :
    Option (List Op) :=
  (tmpfile fs dest toks i).bind fun v1 =>
    (tmpfile fs dest toks v1.2.1).map fun v2 =>
      Op.stat dest :: v1.2.2 ++ v2.2.2 ++ [Op.write v1.1 P] ++
        (if existsFS fs dest then [Op.rename dest v2.1] else []) ++
        [Op.rename v1.1 dest] ++
        (if existsFS fs dest then [Op.unlink v2.1] else [])

/-- Errors surfaced by `put`/`get`: the temp-name generator's exception, a
failed transfer primitive, and the `getattr` failure on an unknown level. -/
inductive PErr where
  | namingExhausted
  | transferFailure
  | attributeError
deriving DecidableEq, Repr

/-- Execute a computed op sequence; `putfo`'s returned `st_size` is the
payload length.  The first component is the filesystem as left behind. -/
def runPut (fs : FS) (ops? : Option (List Op)) (P : Bytes) : FS × Except PErr Nat :=
  match ops? with
  | none => (fs, Except.error PErr.namingExhausted)
  | some ops =>
    let r := runUpTo fs ops
    (r.1, if r.2 then Except.ok P.length else Except.error PErr.transferFailure)

/-- `FS.put`: dynamic dispatch on `put_safe{level}`; an unknown level fails
the attribute lookup before touching the filesystem. -/
def put (level : Int) (fs : FS) (dest : Str) (P : Bytes) (toks : Nat → Str) (i : Nat) :
    FS × Except PErr Nat :=
  if level = 0 then runPut fs (some (put0Ops dest P)) P
  else if level = 1 then runPut fs (some (put1Ops fs dest P)) P
  else if level = 2 then runPut fs (put2Ops fs dest P toks i) P
  else if level = 3 then runPut fs (put3Ops fs dest P toks i) P
  else if level = 4 then runPut fs (put4Ops fs dest P toks i) P
  else (fs, Except.error PErr.attributeError)

/-! ### Interruption semantics

A state is reachable when some prefix of the op sequence has run; a
write-interrupt state is a crash during `putfo`: the prefix before the
write has run and the write's target holds an arbitrary prefix of the
payload (or the crash hit before the write had any effect). -/

/-- `s` is the state after some prefix of `ops` ran from `fs0`. -/
def ReachedBy (fs0 : FS) (ops : List Op) (s : FS) : Prop :=
  ∃ k, runOps fs0 (ops.take k) = some s

/-- `s` is a crash state of one of the write steps of `ops`. -/
def IsWriteInterrupt (fs0 : FS) (ops : List Op) (s : FS) : Prop :=
  ∃ k p c fsk pfx, ops[k]? = some (Op.write p c) ∧
    runOps fs0 (ops.take k) = some fsk ∧ pfx <+: c ∧
    (s = fsk ∨ s = insertFS fsk p pfx)

/-- Any state observable while the op sequence is in flight. -/
def IsInterrupt (fs0 : FS) (ops : List Op) (s : FS) : Prop :=
  ReachedBy fs0 ops s ∨ IsWriteInterrupt fs0 ops s

/-! ### The five get strategies

`get_safeN` mirrors `put_safeN` on the local filesystem: `sftp.get`
copies the remote content to a local path, `tempfile.mkstemp` (modelled
with the same bounded-attempt generator) also *creates* the empty temp
file, and the returned count is `localpath.stat().st_size` at the end. -/

/-- `get_safe0`: get-overwrite. -/
def get0 (c : Bytes) (lfs : FS) (lp : Str) : FS × Except PErr Nat :=
  (insertFS lfs lp c, Except.ok c.length)

/-- `get_safe1`: unlink the local path if present, then get. -/
def get1 (c : Bytes) (lfs : FS) (lp : Str) : FS × Except PErr Nat :=
  let lfs1 := if existsFS lfs lp then eraseFS lfs lp else lfs
  (insertFS lfs1 lp c, Except.ok c.length)

/-- `get_safe2`: if the local path exists, make a temp (created empty by
`mkstemp`) and rename the local path onto it; get; unlink the temp. -/
def get2 (c : Bytes) (lfs : FS) (lp : Str) (toks : Nat → Str) (i : Nat) :
    FS × Except PErr Nat :=
  if existsFS lfs lp then
    (tmpfile lfs lp toks i).elim (lfs, Except.error PErr.namingExhausted) fun v =>
      (lookupFS (insertFS lfs v.1 []) lp).elim
        (insertFS lfs v.1 [], Except.error PErr.transferFailure) fun a =>
        if existsFS (insertFS (insertFS (eraseFS (insertFS lfs v.1 []) lp) v.1 a) lp c) v.1 then
          (eraseFS (insertFS (insertFS (eraseFS (insertFS lfs v.1 []) lp) v.1 a) lp c) v.1,
            Except.ok c.length)
        else
          (insertFS (insertFS (eraseFS (insertFS lfs v.1 []) lp) v.1 a) lp c,
            Except.error PErr.transferFailure)
  else (insertFS lfs lp c, Except.ok c.length)

/-- `get_safe3`: get into a fresh temp (created empty, then overwritten by
the transfer), then rename the temp onto the local path. -/
def get3 (c : Bytes) (lfs : FS) (lp : Str) (toks : Nat → Str) (i : Nat) :
    FS × Except PErr Nat :=
  (tmpfile lfs lp toks i).elim (lfs, Except.error PErr.namingExhausted) fun v =>
    (insertFS (eraseFS (insertFS (insertFS lfs v.1 []) v.1 c) v.1) lp c, Except.ok c.length)

/-- `get_safe4`: get into temp1; if the local path existed, rename it to a
second fresh temp; rename temp1 onto the local path; unlink temp2. -/
def get4 (c : Bytes) (lfs : FS) (lp : Str) (toks : Nat → Str) (i : Nat) :
    FS × Except PErr Nat :=
  (tmpfile lfs lp toks i).elim (lfs, Except.error PErr.namingExhausted) fun v1 =>
    if existsFS lfs lp then
      (tmpfile (insertFS (insertFS lfs v1.1 []) v1.1 c) lp toks v1.2.1).elim
        (insertFS (insertFS lfs v1.1 []) v1.1 c, Except.error PErr.namingExhausted) fun v2 =>
        (lookupFS (insertFS (insertFS (insertFS lfs v1.1 []) v1.1 c) v2.1 []) lp).elim
          (insertFS (insertFS (insertFS lfs v1.1 []) v1.1 c) v2.1 [],
            Except.error PErr.transferFailure) fun a =>
          (lookupFS (insertFS (eraseFS (insertFS (insertFS (insertFS lfs v1.1 []) v1.1 c)
              v2.1 []) lp) v2.1 a) v1.1).elim
            (insertFS (eraseFS (insertFS (insertFS (insertFS lfs v1.1 []) v1.1 c)
              v2.1 []) lp) v2.1 a, Except.error PErr.transferFailure) fun w =>
            if existsFS (insertFS (eraseFS (insertFS (eraseFS (insertFS (insertFS (insertFS lfs
                v1.1 []) v1.1 c) v2.1 []) lp) v2.1 a) v1.1) lp w) v2.1 then
              (eraseFS (insertFS (eraseFS (insertFS (eraseFS (insertFS (insertFS (insertFS lfs
                v1.1 []) v1.1 c) v2.1 []) lp) v2.1 a) v1.1) lp w) v2.1, Except.ok w.length)
            else
              (insertFS (eraseFS (insertFS (eraseFS (insertFS (insertFS (insertFS lfs
                v1.1 []) v1.1 c) v2.1 []) lp) v2.1 a) v1.1) lp w,
                Except.error PErr.transferFailure)
    else
      (lookupFS (insertFS (insertFS lfs v1.1 []) v1.1 c) v1.1).elim
        (insertFS (insertFS lfs v1.1 []) v1.1 c, Except.error PErr.transferFailure) fun w =>
        (insertFS (eraseFS (insertFS (insertFS lfs v1.1 []) v1.1 c) v1.1) lp w,
          Except.ok w.length)

/-- Auxiliary: existence is definedness of the lookup. -/
theorem existsFS_false_iff (fs : FS) (p : Str) :
    existsFS fs p = false ↔ lookupFS fs p = none := by
  unfold existsFS
  cases lookupFS fs p <;> simp

theorem existsFS_true_iff (fs : FS) (p : Str) :
    existsFS fs p = true ↔ ∃ c, lookupFS fs p = some c := by
  unfold existsFS
  cases lookupFS fs p <;> simp

/-- `FS.get`: dynamic dispatch on `get_safe{level}`; reading a missing
remote path fails the transfer; an unknown level fails the attribute
lookup before touching anything. -/
def get (level : Int) (rfs lfs : FS) (rp lp : Str) (toks : Nat → Str) (i : Nat) :
    FS × Except PErr Nat :=
  if level = 0 ∨ level = 1 ∨ level = 2 ∨ level = 3 ∨ level = 4 then
    (lookupFS rfs rp).elim (lfs, Except.error PErr.transferFailure) fun c =>
      if level = 0 then get0 c lfs lp
      else if level = 1 then get1 c lfs lp
      else if level = 2 then get2 c lfs lp toks i
      else if level = 3 then get3 c lfs lp toks i
      else get4 c lfs lp toks i
  else (lfs, Except.error PErr.attributeError)

/-! ### Characterization of completed put runs

Every `put_safeN` that runs to completion returns the payload length and
leaves the filesystem extensionally equal to the initial one with the
destination replaced by the payload. -/

theorem runOps_statPrefix (fs : FS) (pr rest : List Op)
    (h : ∀ op ∈ pr, ∃ q, op = Op.stat q) :
    runOps fs (pr ++ rest) = runOps fs rest := by
  rw [runOps_append, runOps_allStat fs pr h]
  rfl

theorem put0_ok (fs fs' : FS) (dest : Str) (P : Bytes) (toks : Nat → Str) (i : Nat) (n : Nat)
    (h : put 0 fs dest P toks i = (fs', Except.ok n)) :
    n = P.length ∧ ∀ q, lookupFS fs' q = lookupFS (insertFS fs dest P) q := by
  simp only [put, if_pos rfl, runPut, put0Ops, runUpTo, applyOp] at h
  cases h
  exact ⟨rfl, fun q => rfl⟩

theorem put1_ok (fs fs' : FS) (dest : Str) (P : Bytes) (toks : Nat → Str) (i : Nat) (n : Nat)
    (h : put 1 fs dest P toks i = (fs', Except.ok n)) :
    n = P.length ∧ ∀ q, lookupFS fs' q = lookupFS (insertFS fs dest P) q := by
  unfold put at h
  rw [if_neg (by decide : (1:Int) ≠ 0), if_pos rfl, put1Ops] at h
  by_cases hex : existsFS fs dest = true
  · rw [if_pos hex] at h
    have hrun : runUpTo fs (Op.stat dest :: [Op.unlink dest] ++ [Op.write dest P]) =
        (insertFS (eraseFS fs dest) dest P, true) := by
      simp only [List.singleton_append, runUpTo, applyOp, hex, if_pos]
    rw [runPut, hrun] at h
    simp only [if_pos] at h
    obtain ⟨hfs, hn⟩ := Prod.mk.injEq _ _ _ _ ▸ h
    injection hn with hn
    subst hfs
    refine ⟨hn.symm, fun q => ?_⟩
    by_cases hq : q = dest
    · subst hq
      rw [lookupFS_insertFS_self, lookupFS_insertFS_self]
    · rw [lookupFS_insertFS_ne _ _ _ _ (fun hh => hq hh.symm),
        lookupFS_eraseFS_ne _ _ _ (fun hh => hq hh.symm),
        lookupFS_insertFS_ne _ _ _ _ (fun hh => hq hh.symm)]
  · rw [if_neg hex] at h
    have hrun : runUpTo fs (Op.stat dest :: [] ++ [Op.write dest P]) =
        (insertFS fs dest P, true) := by
      simp only [List.nil_append, runUpTo, applyOp]
    rw [runPut, hrun] at h
    simp only [if_pos] at h
    obtain ⟨hfs, hn⟩ := Prod.mk.injEq _ _ _ _ ▸ h
    injection hn with hn
    subst hfs
    exact ⟨hn.symm, fun q => rfl⟩

theorem runUpTo_statPrefix (fs : FS) (pr rest : List Op)
    (h : ∀ op ∈ pr, ∃ q, op = Op.stat q) :
    runUpTo fs (pr ++ rest) = runUpTo fs rest := by
  induction pr with
  | nil => rfl
  | cons op tl ih =>
    obtain ⟨q, hq⟩ := h op (List.mem_cons_self op tl)
    subst hq
    simp only [List.cons_append, runUpTo, applyOp]
    exact ih (fun o ho => h o (List.mem_cons_of_mem _ ho))

theorem put2_ok (fs fs' : FS) (dest : Str) (P : Bytes) (toks : Nat → Str) (i : Nat) (n : Nat)
    (h : put 2 fs dest P toks i = (fs', Except.ok n)) :
    n = P.length ∧ ∀ q, lookupFS fs' q = lookupFS (insertFS fs dest P) q := by
  unfold put at h
  rw [if_neg (by decide : (2:Int) ≠ 0), if_neg (by decide : (2:Int) ≠ 1), if_pos rfl] at h
  cases htmp : tmpfile fs dest toks i with
  | none =>
    rw [put2Ops, htmp] at h
    simp [runPut] at h
  | some v =>
    obtain ⟨tmp, j, pr⟩ := v
    obtain ⟨hfresh, k, -, -, hk, -⟩ := tmpfileGo_ok fs dest toks 10 i tmp j pr htmp
    have hprs := tmpfileGo_probes fs dest toks 10 i tmp j pr htmp
    rw [existsFS_false_iff] at hfresh
    have hne : tmp ≠ dest := hk ▸ tmpName_ne dest (toks k)
    rw [put2Ops, htmp] at h
    simp only [Option.map_some'] at h
    by_cases hex : existsFS fs dest = true
    · rw [if_pos hex, if_pos hex] at h
      obtain ⟨a, ha⟩ := (existsFS_true_iff fs dest).mp hex
      have hrun : runUpTo fs (pr ++ [Op.stat dest] ++ [Op.rename dest tmp] ++
          [Op.write dest P] ++ [Op.unlink tmp]) =
          (eraseFS (insertFS (insertFS (eraseFS fs dest) tmp a) dest P) tmp, true) := by
        rw [show pr ++ [Op.stat dest] ++ [Op.rename dest tmp] ++ [Op.write dest P] ++
            [Op.unlink tmp] = pr ++ (Op.stat dest :: Op.rename dest tmp ::
            Op.write dest P :: Op.unlink tmp :: []) by simp]
        rw [runUpTo_statPrefix fs _ _ hprs]
        have htmpex : existsFS (insertFS (insertFS (eraseFS fs dest) tmp a) dest P) tmp = true := by
          rw [existsFS_true_iff]
          exact ⟨a, by rw [lookupFS_insertFS_ne _ _ _ _ hne.symm, lookupFS_insertFS_self]⟩
        simp only [runUpTo, applyOp, ha, htmpex, if_pos]
      rw [runPut, hrun] at h
      simp only [if_pos] at h
      obtain ⟨hfs, hn⟩ := Prod.mk.injEq _ _ _ _ ▸ h
      injection hn with hn
      subst hfs
      refine ⟨hn.symm, fun q => ?_⟩
      by_cases hq2 : q = tmp
      · subst hq2
        rw [lookupFS_eraseFS_self, lookupFS_insertFS_ne _ _ _ _ hne.symm, hfresh]
      · by_cases hqd : q = dest
        · subst hqd
          rw [lookupFS_eraseFS_ne _ _ _ hne, lookupFS_insertFS_self, lookupFS_insertFS_self]
        · rw [lookupFS_eraseFS_ne _ _ _ (fun hh => hq2 hh.symm),
            lookupFS_insertFS_ne _ _ _ _ (fun hh => hqd hh.symm),
            lookupFS_insertFS_ne _ _ _ _ (fun hh => hq2 hh.symm),
            lookupFS_eraseFS_ne _ _ _ (fun hh => hqd hh.symm),
            lookupFS_insertFS_ne _ _ _ _ (fun hh => hqd hh.symm)]
    · rw [if_neg hex, if_neg hex] at h
      have hrun : runUpTo fs (pr ++ [Op.stat dest] ++ [] ++ [Op.write dest P] ++ []) =
          (insertFS fs dest P, true) := by
        rw [show pr ++ [Op.stat dest] ++ [] ++ [Op.write dest P] ++ [] =
            pr ++ (Op.stat dest :: Op.write dest P :: []) by simp]
        rw [runUpTo_statPrefix fs _ _ hprs]
        simp only [runUpTo, applyOp]
      rw [runPut, hrun] at h
      simp only [if_pos] at h
      obtain ⟨hfs, hn⟩ := Prod.mk.injEq _ _ _ _ ▸ h
      injection hn with hn
      subst hfs
      exact ⟨hn.symm, fun q => rfl⟩

theorem put3_ok (fs fs' : FS) (dest : Str) (P : Bytes) (toks : Nat → Str) (i : Nat) (n : Nat)
    (h : put 3 fs dest P toks i = (fs', Except.ok n)) :
    n = P.length ∧ ∀ q, lookupFS fs' q = lookupFS (insertFS fs dest P) q := by
  unfold put at h
  rw [if_neg (by decide : (3:Int) ≠ 0), if_neg (by decide : (3:Int) ≠ 1),
    if_neg (by decide : (3:Int) ≠ 2), if_pos rfl] at h
  cases htmp : tmpfile fs dest toks i with
  | none =>
    rw [put3Ops, htmp] at h
    simp [runPut] at h
  | some v =>
    obtain ⟨tmp, j, pr⟩ := v
    obtain ⟨hfresh, k, -, -, hk, -⟩ := tmpfileGo_ok fs dest toks 10 i tmp j pr htmp
    have hprs := tmpfileGo_probes fs dest toks 10 i tmp j pr htmp
    rw [existsFS_false_iff] at hfresh
    have hne : tmp ≠ dest := hk ▸ tmpName_ne dest (toks k)
    rw [put3Ops, htmp] at h
    simp only [Option.map_some'] at h
    have hrun : runUpTo fs (pr ++ [Op.write tmp P, Op.rename tmp dest]) =
        (insertFS (eraseFS (insertFS fs tmp P) tmp) dest P, true) := by
      rw [runUpTo_statPrefix fs _ _ hprs]
      simp only [runUpTo, applyOp, lookupFS_insertFS_self]
    rw [runPut, hrun] at h
    simp only [if_pos] at h
    obtain ⟨hfs, hn⟩ := Prod.mk.injEq _ _ _ _ ▸ h
    injection hn with hn
    subst hfs
    refine ⟨hn.symm, fun q => ?_⟩
    by_cases hqd : q = dest
    · subst hqd
      rw [lookupFS_insertFS_self, lookupFS_insertFS_self]
    · by_cases hq2 : q = tmp
      · subst hq2
        rw [lookupFS_insertFS_ne _ _ _ _ (fun hh => hqd hh.symm), lookupFS_eraseFS_self,
          lookupFS_insertFS_ne _ _ _ _ hne.symm, hfresh]
      · rw [lookupFS_insertFS_ne _ _ _ _ (fun hh => hqd hh.symm),
          lookupFS_eraseFS_ne _ _ _ (fun hh => hq2 hh.symm),
          lookupFS_insertFS_ne _ _ _ _ (fun hh => hq2 hh.symm),
          lookupFS_insertFS_ne _ _ _ _ (fun hh => hqd hh.symm)]

theorem put4_ok (fs fs' : FS) (dest : Str) (P : Bytes) (toks : Nat → Str) (i : Nat) (n : Nat)
    (h : put 4 fs dest P toks i = (fs', Except.ok n)) :
    n = P.length ∧ ∀ q, lookupFS fs' q = lookupFS (insertFS fs dest P) q := by
  unfold put at h
  rw [if_neg (by decide : (4:Int) ≠ 0), if_neg (by decide : (4:Int) ≠ 1),
    if_neg (by decide : (4:Int) ≠ 2), if_neg (by decide : (4:Int) ≠ 3), if_pos rfl] at h
  cases htmp1 : tmpfile fs dest toks i with
  | none =>
    rw [put4Ops, htmp1] at h
    simp [runPut] at h
  | some v1 =>
    obtain ⟨tmp1, j, pr1⟩ := v1
    obtain ⟨hfresh1, k1, -, -, hk1, -⟩ := tmpfileGo_ok fs dest toks 10 i tmp1 j pr1 htmp1
    have hprs1 := tmpfileGo_probes fs dest toks 10 i tmp1 j pr1 htmp1
    rw [existsFS_false_iff] at hfresh1
    have hne1 : tmp1 ≠ dest := hk1 ▸ tmpName_ne dest (toks k1)
    cases htmp2 : tmpfile fs dest toks j with
    | none =>
      rw [put4Ops, htmp1] at h
      simp only [Option.some_bind] at h
      rw [htmp2] at h
      simp [runPut] at h
    | some v2 =>
      obtain ⟨tmp2, j2, pr2⟩ := v2
      obtain ⟨hfresh2, k2, -, -, hk2, -⟩ := tmpfileGo_ok fs dest toks 10 j tmp2 j2 pr2 htmp2
      have hprs2 := tmpfileGo_probes fs dest toks 10 j tmp2 j2 pr2 htmp2
      rw [existsFS_false_iff] at hfresh2
      have hne2 : tmp2 ≠ dest := hk2 ▸ tmpName_ne dest (toks k2)
      rw [put4Ops, htmp1] at h
      simp only [Option.some_bind] at h
      rw [htmp2] at h
      simp only [Option.map_some'] at h
      have hpr12 : ∀ op ∈ pr1 ++ pr2, ∃ q, op = Op.stat q := by
        intro op hop
        rcases List.mem_append.mp hop with h1 | h2
        · exact hprs1 op h1
        · exact hprs2 op h2
      by_cases hex : existsFS fs dest = true
      · rw [if_pos hex, if_pos hex] at h
        obtain ⟨a, ha⟩ := (existsFS_true_iff fs dest).mp hex
        by_cases h12 : tmp1 = tmp2
        · -- colliding temp names: the final unlink fails, so the run is not ok
          exfalso
          subst h12
          have hrun : runUpTo fs (Op.stat dest :: pr1 ++ pr2 ++ [Op.write tmp1 P] ++
              [Op.rename dest tmp1] ++ [Op.rename tmp1 dest] ++ [Op.unlink tmp1]) =
              (insertFS (eraseFS (insertFS (eraseFS (insertFS fs tmp1 P) dest) tmp1 a) tmp1)
                dest a, false) := by
            rw [show Op.stat dest :: pr1 ++ pr2 ++ [Op.write tmp1 P] ++ [Op.rename dest tmp1] ++
                [Op.rename tmp1 dest] ++ [Op.unlink tmp1] = Op.stat dest :: ((pr1 ++ pr2) ++
                (Op.write tmp1 P :: Op.rename dest tmp1 :: Op.rename tmp1 dest ::
                 Op.unlink tmp1 :: [])) by simp]
            rw [show runUpTo fs (Op.stat dest :: ((pr1 ++ pr2) ++ (Op.write tmp1 P ::
                Op.rename dest tmp1 :: Op.rename tmp1 dest :: Op.unlink tmp1 :: []))) =
                runUpTo fs ((pr1 ++ pr2) ++ (Op.write tmp1 P :: Op.rename dest tmp1 ::
                Op.rename tmp1 dest :: Op.unlink tmp1 :: [])) from rfl]
            rw [runUpTo_statPrefix fs _ _ hpr12]
            have hl1 : lookupFS (insertFS fs tmp1 P) dest = some a := by
              rw [lookupFS_insertFS_ne _ _ _ _ hne1, ha]
            have hl2 : lookupFS (insertFS (eraseFS (insertFS fs tmp1 P) dest) tmp1 a) tmp1 =
                some a := lookupFS_insertFS_self _ _ _
            have hl3 : existsFS (insertFS (eraseFS (insertFS (eraseFS (insertFS fs tmp1 P) dest)
                tmp1 a) tmp1) dest a) tmp1 = false := by
              rw [existsFS_false_iff, lookupFS_insertFS_ne _ _ _ _ hne1.symm,
                lookupFS_eraseFS_self]
            simp only [runUpTo, applyOp, hl1, hl2, hl3, if_neg, Bool.false_eq_true,
              not_false_iff]
          rw [runPut, hrun] at h
          simp at h
        · have hrun : runUpTo fs (Op.stat dest :: pr1 ++ pr2 ++ [Op.write tmp1 P] ++
              [Op.rename dest tmp2] ++ [Op.rename tmp1 dest] ++ [Op.unlink tmp2]) =
              (eraseFS (insertFS (eraseFS (insertFS (eraseFS (insertFS fs tmp1 P) dest) tmp2 a)
                tmp1) dest P) tmp2, true) := by
            rw [show Op.stat dest :: pr1 ++ pr2 ++ [Op.write tmp1 P] ++ [Op.rename dest tmp2] ++
                [Op.rename tmp1 dest] ++ [Op.unlink tmp2] = Op.stat dest :: ((pr1 ++ pr2) ++
                (Op.write tmp1 P :: Op.rename dest tmp2 :: Op.rename tmp1 dest ::
                 Op.unlink tmp2 :: [])) by simp]
            rw [show runUpTo fs (Op.stat dest :: ((pr1 ++ pr2) ++ (Op.write tmp1 P ::
                Op.rename dest tmp2 :: Op.rename tmp1 dest :: Op.unlink tmp2 :: []))) =
                runUpTo fs ((pr1 ++ pr2) ++ (Op.write tmp1 P :: Op.rename dest tmp2 ::
                Op.rename tmp1 dest :: Op.unlink tmp2 :: [])) from rfl]
            rw [runUpTo_statPrefix fs _ _ hpr12]
            have hl1 : lookupFS (insertFS fs tmp1 P) dest = some a := by
              rw [lookupFS_insertFS_ne _ _ _ _ hne1, ha]
            have hl2 : lookupFS (insertFS (eraseFS (insertFS fs tmp1 P) dest) tmp2 a) tmp1 =
                some P := by
              rw [lookupFS_insertFS_ne _ _ _ _ (fun hh => h12 hh.symm),
                lookupFS_eraseFS_ne _ _ _ (fun hh => hne1 hh.symm), lookupFS_insertFS_self]
            have hl3 : existsFS (insertFS (eraseFS (insertFS (eraseFS (insertFS fs tmp1 P) dest)
                tmp2 a) tmp1) dest P) tmp2 = true := by
              rw [existsFS_true_iff]
              refine ⟨a, ?_⟩
              rw [lookupFS_insertFS_ne _ _ _ _ hne2.symm,
                lookupFS_eraseFS_ne _ _ _ h12,
                lookupFS_insertFS_self]
            simp only [runUpTo, applyOp, hl1, hl2, hl3, if_pos]
          rw [runPut, hrun] at h
          simp only [if_pos] at h
          obtain ⟨hfs, hn⟩ := Prod.mk.injEq _ _ _ _ ▸ h
          injection hn with hn
          subst hfs
          refine ⟨hn.symm, fun q => ?_⟩
          by_cases hq2 : q = tmp2
          · subst hq2
            rw [lookupFS_eraseFS_self, lookupFS_insertFS_ne _ _ _ _ hne2.symm, hfresh2]
          · by_cases hqd : q = dest
            · subst hqd
              rw [lookupFS_eraseFS_ne _ _ _ hne2, lookupFS_insertFS_self,
                lookupFS_insertFS_self]
            · by_cases hq1 : q = tmp1
              · subst hq1
                rw [lookupFS_eraseFS_ne _ _ _ (fun hh => hq2 hh.symm),
                  lookupFS_insertFS_ne _ _ _ _ (fun hh => hqd hh.symm), lookupFS_eraseFS_self,
                  lookupFS_insertFS_ne _ _ _ _ hne1.symm, hfresh1]
              · rw [lookupFS_eraseFS_ne _ _ _ (fun hh => hq2 hh.symm),
                  lookupFS_insertFS_ne _ _ _ _ (fun hh => hqd hh.symm),
                  lookupFS_eraseFS_ne _ _ _ (fun hh => hq1 hh.symm),
                  lookupFS_insertFS_ne _ _ _ _ (fun hh => hq2 hh.symm),
                  lookupFS_eraseFS_ne _ _ _ (fun hh => hqd hh.symm),
                  lookupFS_insertFS_ne _ _ _ _ (fun hh => hq1 hh.symm),
                  lookupFS_insertFS_ne _ _ _ _ (fun hh => hqd hh.symm)]
      · rw [if_neg hex, if_neg hex] at h
        have hrun : runUpTo fs (Op.stat dest :: pr1 ++ pr2 ++ [Op.write tmp1 P] ++ [] ++
            [Op.rename tmp1 dest] ++ []) =
            (insertFS (eraseFS (insertFS fs tmp1 P) tmp1) dest P, true) := by
          rw [show Op.stat dest :: pr1 ++ pr2 ++ [Op.write tmp1 P] ++ [] ++
              [Op.rename tmp1 dest] ++ [] = Op.stat dest :: ((pr1 ++ pr2) ++
              (Op.write tmp1 P :: Op.rename tmp1 dest :: [])) by simp]
          rw [show runUpTo fs (Op.stat dest :: ((pr1 ++ pr2) ++ (Op.write tmp1 P ::
              Op.rename tmp1 dest :: []))) = runUpTo fs ((pr1 ++ pr2) ++
              (Op.write tmp1 P :: Op.rename tmp1 dest :: [])) from rfl]
          rw [runUpTo_statPrefix fs _ _ hpr12]
          simp only [runUpTo, applyOp, lookupFS_insertFS_self]
        rw [runPut, hrun] at h
        simp only [if_pos] at h
        obtain ⟨hfs, hn⟩ := Prod.mk.injEq _ _ _ _ ▸ h
        injection hn with hn
        subst hfs
        refine ⟨hn.symm, fun q => ?_⟩
        by_cases hqd : q = dest
        · subst hqd
          rw [lookupFS_insertFS_self, lookupFS_insertFS_self]
        · by_cases hq1 : q = tmp1
          · subst hq1
            rw [lookupFS_insertFS_ne _ _ _ _ (fun hh => hqd hh.symm), lookupFS_eraseFS_self,
              lookupFS_insertFS_ne _ _ _ _ hne1.symm, hfresh1]
          · rw [lookupFS_insertFS_ne _ _ _ _ (fun hh => hqd hh.symm),
              lookupFS_eraseFS_ne _ _ _ (fun hh => hq1 hh.symm),
              lookupFS_insertFS_ne _ _ _ _ (fun hh => hq1 hh.symm),
              lookupFS_insertFS_ne _ _ _ _ (fun hh => hqd hh.symm)]

/-! ### Characterization of completed get runs

Every `get_safeN` that runs to completion read some content from the
remote path, returns its length, and leaves that content at the local
path. -/

theorem get0_ok (rfs lfs lfs' : FS) (rp lp : Str) (toks : Nat → Str) (i n : Nat)
    (h : get 0 rfs lfs rp lp toks i = (lfs', Except.ok n)) :
    ∃ c, lookupFS rfs rp = some c ∧ n = c.length ∧ lookupFS lfs' lp = some c := by
  unfold get at h
  rw [if_pos (by decide)] at h
  cases hc : lookupFS rfs rp with
  | none =>
    rw [hc, Option.elim_none] at h
    exact Except.noConfusion
      (show (Except.error PErr.transferFailure : Except PErr Nat) = Except.ok n from
        congrArg Prod.snd h)
  | some c =>
    rw [hc, Option.elim_some] at h
    have h' : ((insertFS lfs lp c, Except.ok c.length) : FS × Except PErr Nat) =
        (lfs', Except.ok n) := h
    obtain ⟨hfs, hn⟩ := Prod.mk.injEq _ _ _ _ ▸ h'
    injection hn with hn
    exact ⟨c, rfl, hn.symm, by rw [← hfs, lookupFS_insertFS_self]⟩

theorem get1_ok (rfs lfs lfs' : FS) (rp lp : Str) (toks : Nat → Str) (i n : Nat)
    (h : get 1 rfs lfs rp lp toks i = (lfs', Except.ok n)) :
    ∃ c, lookupFS rfs rp = some c ∧ n = c.length ∧ lookupFS lfs' lp = some c := by
  unfold get at h
  rw [if_pos (by decide)] at h
  cases hc : lookupFS rfs rp with
  | none =>
    rw [hc, Option.elim_none] at h
    exact Except.noConfusion
      (show (Except.error PErr.transferFailure : Except PErr Nat) = Except.ok n from
        congrArg Prod.snd h)
  | some c =>
    rw [hc, Option.elim_some] at h
    have h' : ((insertFS (if existsFS lfs lp then eraseFS lfs lp else lfs) lp c,
        Except.ok c.length) : FS × Except PErr Nat) = (lfs', Except.ok n) := h
    obtain ⟨hfs, hn⟩ := Prod.mk.injEq _ _ _ _ ▸ h'
    injection hn with hn
    exact ⟨c, rfl, hn.symm, by rw [← hfs, lookupFS_insertFS_self]⟩

theorem get2_ok (rfs lfs lfs' : FS) (rp lp : Str) (toks : Nat → Str) (i n : Nat)
    (h : get 2 rfs lfs rp lp toks i = (lfs', Except.ok n)) :
    ∃ c, lookupFS rfs rp = some c ∧ n = c.length ∧ lookupFS lfs' lp = some c := by
  unfold get at h
  rw [if_pos (by decide)] at h
  cases hc : lookupFS rfs rp with
  | none =>
    rw [hc, Option.elim_none] at h
    exact Except.noConfusion
      (show (Except.error PErr.transferFailure : Except PErr Nat) = Except.ok n from
        congrArg Prod.snd h)
  | some c =>
    rw [hc, Option.elim_some] at h
    have h2 : get2 c lfs lp toks i = (lfs', Except.ok n) := h
    unfold get2 at h2
    by_cases hex : existsFS lfs lp = true
    · rw [if_pos hex] at h2
      obtain ⟨a, ha⟩ := (existsFS_true_iff lfs lp).mp hex
      cases htmp : tmpfile lfs lp toks i with
      | none =>
        rw [htmp, Option.elim_none] at h2
        exact Except.noConfusion
          (show (Except.error PErr.namingExhausted : Except PErr Nat) = Except.ok n from
            congrArg Prod.snd h2)
      | some v =>
        obtain ⟨tmp, j, pr⟩ := v
        obtain ⟨-, k, -, -, hk, -⟩ := tmpfileGo_ok lfs lp toks 10 i tmp j pr htmp
        have hne : tmp ≠ lp := hk ▸ tmpName_ne lp (toks k)
        rw [htmp, Option.elim_some] at h2
        dsimp only [] at h2
        have hl1 : lookupFS (insertFS lfs tmp []) lp = some a := by
          rw [lookupFS_insertFS_ne _ _ _ _ hne]; exact ha
        rw [hl1, Option.elim_some] at h2
        have hextmp : existsFS (insertFS (insertFS (eraseFS (insertFS lfs tmp []) lp) tmp a)
            lp c) tmp = true := by
          rw [existsFS_true_iff]
          exact ⟨a, by rw [lookupFS_insertFS_ne _ _ _ _ hne.symm, lookupFS_insertFS_self]⟩
        rw [if_pos hextmp] at h2
        obtain ⟨hfs, hn⟩ := Prod.mk.injEq _ _ _ _ ▸ h2
        injection hn with hn
        refine ⟨c, rfl, hn.symm, ?_⟩
        rw [← hfs, lookupFS_eraseFS_ne _ _ _ hne, lookupFS_insertFS_self]
    · rw [if_neg hex] at h2
      obtain ⟨hfs, hn⟩ := Prod.mk.injEq _ _ _ _ ▸ h2
      injection hn with hn
      exact ⟨c, rfl, hn.symm, by rw [← hfs, lookupFS_insertFS_self]⟩

theorem get3_ok (rfs lfs lfs' : FS) (rp lp : Str) (toks : Nat → Str) (i n : Nat)
    (h : get 3 rfs lfs rp lp toks i = (lfs', Except.ok n)) :
    ∃ c, lookupFS rfs rp = some c ∧ n = c.length ∧ lookupFS lfs' lp = some c := by
  unfold get at h
  rw [if_pos (by decide)] at h
  cases hc : lookupFS rfs rp with
  | none =>
    rw [hc, Option.elim_none] at h
    exact Except.noConfusion
      (show (Except.error PErr.transferFailure : Except PErr Nat) = Except.ok n from
        congrArg Prod.snd h)
  | some c =>
    rw [hc, Option.elim_some] at h
    have h3 : get3 c lfs lp toks i = (lfs', Except.ok n) := h
    unfold get3 at h3
    cases htmp : tmpfile lfs lp toks i with
    | none =>
      rw [htmp, Option.elim_none] at h3
      exact Except.noConfusion
        (show (Except.error PErr.namingExhausted : Except PErr Nat) = Except.ok n from
          congrArg Prod.snd h3)
    | some v =>
      obtain ⟨tmp, j, pr⟩ := v
      rw [htmp, Option.elim_some] at h3
      dsimp only [] at h3
      obtain ⟨hfs, hn⟩ := Prod.mk.injEq _ _ _ _ ▸ h3
      injection hn with hn
      exact ⟨c, rfl, hn.symm, by rw [← hfs, lookupFS_insertFS_self]⟩

theorem get4_ok (rfs lfs lfs' : FS) (rp lp : Str) (toks : Nat → Str) (i n : Nat)
    (h : get 4 rfs lfs rp lp toks i = (lfs', Except.ok n)) :
    ∃ c, lookupFS rfs rp = some c ∧ n = c.length ∧ lookupFS lfs' lp = some c := by
  unfold get at h
  rw [if_pos (by decide)] at h
  cases hc : lookupFS rfs rp with
  | none =>
    rw [hc, Option.elim_none] at h
    exact Except.noConfusion
      (show (Except.error PErr.transferFailure : Except PErr Nat) = Except.ok n from
        congrArg Prod.snd h)
  | some c =>
    rw [hc, Option.elim_some] at h
    have h4 : get4 c lfs lp toks i = (lfs', Except.ok n) := h
    unfold get4 at h4
    cases htmp1 : tmpfile lfs lp toks i with
    | none =>
      rw [htmp1, Option.elim_none] at h4
      exact Except.noConfusion
        (show (Except.error PErr.namingExhausted : Except PErr Nat) = Except.ok n from
          congrArg Prod.snd h4)
    | some v1 =>
      obtain ⟨tmp1, j, pr1⟩ := v1
      obtain ⟨-, k1, -, -, hk1, -⟩ := tmpfileGo_ok lfs lp toks 10 i tmp1 j pr1 htmp1
      have hne1 : tmp1 ≠ lp := hk1 ▸ tmpName_ne lp (toks k1)
      rw [htmp1, Option.elim_some] at h4
      dsimp only [] at h4
      by_cases hex : existsFS lfs lp = true
      · rw [if_pos hex] at h4
        obtain ⟨a, ha⟩ := (existsFS_true_iff lfs lp).mp hex
        cases htmp2 : tmpfile (insertFS (insertFS lfs tmp1 []) tmp1 c) lp toks j with
        | none =>
          rw [htmp2, Option.elim_none] at h4
          exact Except.noConfusion
            (show (Except.error PErr.namingExhausted : Except PErr Nat) = Except.ok n from
              congrArg Prod.snd h4)
        | some v2 =>
          obtain ⟨tmp2, j2, pr2⟩ := v2
          obtain ⟨hfresh2, k2, -, -, hk2, -⟩ :=
            tmpfileGo_ok (insertFS (insertFS lfs tmp1 []) tmp1 c) lp toks 10 j tmp2 j2 pr2 htmp2
          have hne2 : tmp2 ≠ lp := hk2 ▸ tmpName_ne lp (toks k2)
          rw [existsFS_false_iff] at hfresh2
          have h21 : tmp2 ≠ tmp1 := by
            intro hh
            rw [hh, lookupFS_insertFS_self] at hfresh2
            cases hfresh2
          rw [htmp2, Option.elim_some] at h4
          dsimp only [] at h4
          have hla : lookupFS (insertFS (insertFS (insertFS lfs tmp1 []) tmp1 c) tmp2 []) lp =
              some a := by
            rw [lookupFS_insertFS_ne _ _ _ _ hne2, lookupFS_insertFS_ne _ _ _ _ hne1,
              lookupFS_insertFS_ne _ _ _ _ hne1]
            exact ha
          rw [hla, Option.elim_some] at h4
          have hlw : lookupFS (insertFS (eraseFS (insertFS (insertFS (insertFS lfs tmp1 [])
              tmp1 c) tmp2 []) lp) tmp2 a) tmp1 = some c := by
            rw [lookupFS_insertFS_ne _ _ _ _ h21,
              lookupFS_eraseFS_ne _ _ _ (fun hh => hne1 hh.symm),
              lookupFS_insertFS_ne _ _ _ _ h21, lookupFS_insertFS_self]
          rw [hlw, Option.elim_some] at h4
          have hex2 : existsFS (insertFS (eraseFS (insertFS (eraseFS (insertFS (insertFS
              (insertFS lfs tmp1 []) tmp1 c) tmp2 []) lp) tmp2 a) tmp1) lp c) tmp2 = true := by
            rw [existsFS_true_iff]
            refine ⟨a, ?_⟩
            rw [lookupFS_insertFS_ne _ _ _ _ hne2.symm, lookupFS_eraseFS_ne _ _ _ h21.symm,
              lookupFS_insertFS_self]
          rw [if_pos hex2] at h4
          obtain ⟨hfs, hn⟩ := Prod.mk.injEq _ _ _ _ ▸ h4
          injection hn with hn
          refine ⟨c, rfl, hn.symm, ?_⟩
          rw [← hfs, lookupFS_eraseFS_ne _ _ _ hne2, lookupFS_insertFS_self]
      · rw [if_neg hex] at h4
        have hlw : lookupFS (insertFS (insertFS lfs tmp1 []) tmp1 c) tmp1 = some c :=
          lookupFS_insertFS_self _ _ _
        rw [hlw, Option.elim_some] at h4
        obtain ⟨hfs, hn⟩ := Prod.mk.injEq _ _ _ _ ▸ h4
        injection hn with hn
        exact ⟨c, rfl, hn.symm, by rw [← hfs, lookupFS_insertFS_self]⟩

/-- C5: for every supported level 0–4 and every byte payload, a completed
`put` followed by a completed `get` of the same destination hands back
exactly the payload, and both calls return the payload's byte count. -/
theorem put_get_roundtrip (level : Int) (rfs rfs' lfs lfs' : FS) (dest lp : Str) (P : Bytes)
    (toks toks' : Nat → Str) (i i' n1 n2 : Nat)
    (h04 : 0 ≤ level ∧ level ≤ 4)
    (hput : put level rfs dest P toks i = (rfs', Except.ok n1))
    (hget : get level rfs' lfs dest lp toks' i' = (lfs', Except.ok n2)) :
    n1 = P.length ∧ n2 = P.length ∧ lookupFS lfs' lp = some P := by
  have hlev : level = 0 ∨ level = 1 ∨ level = 2 ∨ level = 3 ∨ level = 4 := by omega
  rcases hlev with h | h | h | h | h <;> subst h
  · obtain ⟨hn1, hchar⟩ := put0_ok rfs rfs' dest P toks i n1 hput
    obtain ⟨c, hcrp, hn2, hlp⟩ := get0_ok rfs' lfs lfs' dest lp toks' i' n2 hget
    have hd : lookupFS rfs' dest = some P := by rw [hchar dest, lookupFS_insertFS_self]
    rw [hd] at hcrp
    injection hcrp with hcrp
    subst hcrp
    exact ⟨hn1, hn2, hlp⟩
  · obtain ⟨hn1, hchar⟩ := put1_ok rfs rfs' dest P toks i n1 hput
    obtain ⟨c, hcrp, hn2, hlp⟩ := get1_ok rfs' lfs lfs' dest lp toks' i' n2 hget
    have hd : lookupFS rfs' dest = some P := by rw [hchar dest, lookupFS_insertFS_self]
    rw [hd] at hcrp
    injection hcrp with hcrp
    subst hcrp
    exact ⟨hn1, hn2, hlp⟩
  · obtain ⟨hn1, hchar⟩ := put2_ok rfs rfs' dest P toks i n1 hput
    obtain ⟨c, hcrp, hn2, hlp⟩ := get2_ok rfs' lfs lfs' dest lp toks' i' n2 hget
    have hd : lookupFS rfs' dest = some P := by rw [hchar dest, lookupFS_insertFS_self]
    rw [hd] at hcrp
    injection hcrp with hcrp
    subst hcrp
    exact ⟨hn1, hn2, hlp⟩
  · obtain ⟨hn1, hchar⟩ := put3_ok rfs rfs' dest P toks i n1 hput
    obtain ⟨c, hcrp, hn2, hlp⟩ := get3_ok rfs' lfs lfs' dest lp toks' i' n2 hget
    have hd : lookupFS rfs' dest = some P := by rw [hchar dest, lookupFS_insertFS_self]
    rw [hd] at hcrp
    injection hcrp with hcrp
    subst hcrp
    exact ⟨hn1, hn2, hlp⟩
  · obtain ⟨hn1, hchar⟩ := put4_ok rfs rfs' dest P toks i n1 hput
    obtain ⟨c, hcrp, hn2, hlp⟩ := get4_ok rfs' lfs lfs' dest lp toks' i' n2 hget
    have hd : lookupFS rfs' dest = some P := by rw [hchar dest, lookupFS_insertFS_self]
    rw [hd] at hcrp
    injection hcrp with hcrp
    subst hcrp
    exact ⟨hn1, hn2, hlp⟩

/-- Witness for C5 at level 3 with payload `[7, 8]`. -/
theorem put_get_roundtrip_witness :
    2 = ([7, 8] : Bytes).length ∧ 2 = ([7, 8] : Bytes).length ∧
      lookupFS [(['l'], [7, 8])] ['l'] = some [7, 8] :=
  put_get_roundtrip 3 [] [(['d'], [7, 8])] [] [(['l'], [7, 8])] ['d'] ['l'] [7, 8]
    (fun _ => ['t']) (fun _ => ['t']) 0 0 2 2 (by decide) rfl rfl

/-- C10: calling `put` or `get` with any integer level outside 0–4 fails
the `getattr` lookup with an attribute error before any transfer
primitive runs, leaving the filesystems unchanged. -/
theorem put_get_unknown_level (level : Int) (fs rfs lfs : FS) (dest rp lp : Str) (P : Bytes)
    (toks toks' : Nat → Str) (i i' : Nat) (h : level < 0 ∨ 4 < level) :
    put level fs dest P toks i = (fs, Except.error PErr.attributeError) ∧
      get level rfs lfs rp lp toks' i' = (lfs, Except.error PErr.attributeError) := by
  constructor
  · unfold put
    rw [if_neg (by omega), if_neg (by omega), if_neg (by omega), if_neg (by omega),
      if_neg (by omega)]
  · unfold get
    rw [if_neg (by omega)]

/-- Witness for C10 at level 5. -/
theorem put_get_unknown_level_witness :
    put 5 [] ['d'] [1] (fun _ => ['t']) 0 = ([], Except.error PErr.attributeError) ∧
      get 5 [] [] ['d'] ['l'] (fun _ => ['t']) 0 = ([], Except.error PErr.attributeError) :=
  put_get_unknown_level 5 [] [] [] ['d'] ['d'] ['l'] [1] (fun _ => ['t']) (fun _ => ['t']) 0 0
    (Or.inr (by decide))

/-- C2, refuted as stated: in `put_safe4` the existence check of the
destination is the very first primitive, before the temp names are drawn
and before the payload is written to the first temporary.  On a concrete
destination that already exists, the generated op sequence stats the
destination at index 0 while the write only happens at index 3. -/
theorem put4_exists_check_before_write_cex :
    put4Ops [(['d'], [1])] ['d'] [2] (fun n => if n = 0 then ['a'] else ['b']) 0 =
      some [Op.stat ['d'], Op.stat ['d', '.', 'a'], Op.stat ['d', '.', 'b'],
        Op.write ['d', '.', 'a'] [2], Op.rename ['d'] ['d', '.', 'b'],
        Op.rename ['d', '.', 'a'] ['d'], Op.unlink ['d', '.', 'b']] ∧
    [Op.stat ['d'], Op.stat ['d', '.', 'a'], Op.stat ['d', '.', 'b'],
        Op.write ['d', '.', 'a'] [2], Op.rename ['d'] ['d', '.', 'b'],
        Op.rename ['d', '.', 'a'] ['d'], Op.unlink ['d', '.', 'b']][0]? =
      some (Op.stat ['d']) ∧
    [Op.stat ['d'], Op.stat ['d', '.', 'a'], Op.stat ['d', '.', 'b'],
        Op.write ['d', '.', 'a'] [2], Op.rename ['d'] ['d', '.', 'b'],
        Op.rename ['d', '.', 'a'] ['d'], Op.unlink ['d', '.', 'b']][3]? =
      some (Op.write ['d', '.', 'a'] [2]) ∧ (0 : Nat) < 3 := by
  refine ⟨?_, rfl, rfl, by decide⟩
  decide

/-- C2 amended: in `put_safe4` the destination existence check is the
first primitive issued, and the write of the payload to the first
temporary happens strictly later (after all temp-name probes). -/
theorem put4_exists_check_first (fs : FS) (dest : Str) (P : Bytes) (toks : Nat → Str)
    (i : Nat) (tmp1 tmp2 : Str) (j j2 : Nat) (pr1 pr2 : List Op) (ops : List Op)
    (htmp1 : tmpfile fs dest toks i = some (tmp1, j, pr1))
    (htmp2 : tmpfile fs dest toks j = some (tmp2, j2, pr2))
    (hops : put4Ops fs dest P toks i = some ops) :
    ops[0]? = some (Op.stat dest) ∧
      ops[1 + pr1.length + pr2.length]? = some (Op.write tmp1 P) ∧
      0 < 1 + pr1.length + pr2.length := by
  rw [put4Ops, htmp1] at hops
  simp only [Option.some_bind] at hops
  rw [htmp2] at hops
  simp only [Option.map_some'] at hops
  have hshape : (Op.stat dest :: pr1 ++ pr2 ++ [Op.write tmp1 P] ++
      (if existsFS fs dest = true then [Op.rename dest tmp2] else []) ++
      [Op.rename tmp1 dest] ++
      (if existsFS fs dest = true then [Op.unlink tmp2] else [])) =
      (Op.stat dest :: pr1 ++ pr2) ++ (Op.write tmp1 P ::
        ((if existsFS fs dest = true then [Op.rename dest tmp2] else []) ++
         [Op.rename tmp1 dest] ++
         (if existsFS fs dest = true then [Op.unlink tmp2] else []))) := by
    simp
  injection hops with hops
  rw [← hops, hshape]
  refine ⟨by simp, ?_, by omega⟩
  have hlen : (Op.stat dest :: pr1 ++ pr2).length = 1 + pr1.length + pr2.length := by
    simp [List.length_append]
    omega
  rw [← hlen, List.getElem?_append_right (le_refl _)]
  simp

/-- Witness for C2 amended at the concrete input of the counterexample. -/
theorem put4_exists_check_first_witness :
    [Op.stat ['d'], Op.stat ['d', '.', 'a'], Op.stat ['d', '.', 'b'],
        Op.write ['d', '.', 'a'] [2], Op.rename ['d'] ['d', '.', 'b'],
        Op.rename ['d', '.', 'a'] ['d'], Op.unlink ['d', '.', 'b']][0]? =
      some (Op.stat ['d']) ∧
    [Op.stat ['d'], Op.stat ['d', '.', 'a'], Op.stat ['d', '.', 'b'],
        Op.write ['d', '.', 'a'] [2], Op.rename ['d'] ['d', '.', 'b'],
        Op.rename ['d', '.', 'a'] ['d'], Op.unlink ['d', '.', 'b']][1 +
      ([Op.stat ['d', '.', 'a']] : List Op).length +
      ([Op.stat ['d', '.', 'b']] : List Op).length]? =
      some (Op.write ['d', '.', 'a'] [2]) ∧
    0 < 1 + ([Op.stat ['d', '.', 'a']] : List Op).length +
      ([Op.stat ['d', '.', 'b']] : List Op).length :=
  put4_exists_check_first [(['d'], [1])] ['d'] [2]
    (fun n => if n = 0 then ['a'] else ['b']) 0 ['d', '.', 'a'] ['d', '.', 'b'] 1 2
    [Op.stat ['d', '.', 'a']] [Op.stat ['d', '.', 'b']]
    [Op.stat ['d'], Op.stat ['d', '.', 'a'], Op.stat ['d', '.', 'b'],
      Op.write ['d', '.', 'a'] [2], Op.rename ['d'] ['d', '.', 'b'],
      Op.rename ['d', '.', 'a'] ['d'], Op.unlink ['d', '.', 'b']]
    (by decide) (by decide) (by decide)

/-- If an op sequence consists of stat probes, a single write, and a tail
with no write at all, then a crash during "the write step" happens with
the probes done (state unchanged) and leaves the write's target holding a
prefix of its payload. -/
theorem writeInterrupt_unique (fs : FS) (S T : List Op) (p0 : Str) (c0 : Bytes) (s : FS)
    (hS : ∀ op ∈ S, ∃ q, op = Op.stat q)
    (hT : ∀ p c, Op.write p c ∉ T)
    (hw : IsWriteInterrupt fs (S ++ Op.write p0 c0 :: T) s) :
    s = fs ∨ ∃ pfx, pfx <+: c0 ∧ s = insertFS fs p0 pfx := by
  obtain ⟨k, p, c, fsk, pfx, hk, hrun, hpfx, hs⟩ := hw
  rcases Nat.lt_trichotomy k S.length with hlt | heq | hgt
  · exfalso
    rw [List.getElem?_append_left hlt] at hk
    obtain ⟨q, hq⟩ := hS _ (List.getElem?_mem hk)
    cases hq
  · subst heq
    rw [List.getElem?_append_right (le_refl _), Nat.sub_self] at hk
    simp only [List.getElem?_cons_zero] at hk
    injection hk with hk
    obtain ⟨hp, hc⟩ := Op.write.injEq _ _ _ _ ▸ hk
    subst hp; subst hc
    rw [List.take_left, runOps_allStat fs S hS] at hrun
    injection hrun with hrun
    subst hrun
    rcases hs with hs | hs
    · exact Or.inl hs
    · exact Or.inr ⟨pfx, hpfx, hs⟩
  · exfalso
    rw [List.getElem?_append_right (le_of_lt hgt)] at hk
    have h1 : 1 ≤ k - S.length := by omega
    rw [List.getElem?_cons, if_neg (by omega)] at hk
    exact hT p c (List.getElem?_mem hk)

/-- C1, refuted as stated: at level 2 the write goes directly to the
destination, so a crash during the write leaves the destination holding a
prefix of the new payload, not the old content (which survives only in
the temporary).  Concrete: destination `d` held `[1]`; after the level-2
rename and a partial write of payload `[2, 2]`, `d` holds `[2] ≠ [1]`. -/
theorem put2_write_crash_cex :
    put2Ops [(['d'], [1])] ['d'] [2, 2] (fun _ => ['t']) 0 =
      some [Op.stat ['d', '.', 't'], Op.stat ['d'], Op.rename ['d'] ['d', '.', 't'],
        Op.write ['d'] [2, 2], Op.unlink ['d', '.', 't']] ∧
    IsWriteInterrupt [(['d'], [1])]
      [Op.stat ['d', '.', 't'], Op.stat ['d'], Op.rename ['d'] ['d', '.', 't'],
        Op.write ['d'] [2, 2], Op.unlink ['d', '.', 't']]
      [(['d'], [2]), (['d', '.', 't'], [1])] ∧
    ¬ lookupFS [(['d'], [2]), (['d', '.', 't'], [1])] ['d'] = some [1] := by
  refine ⟨by decide, ?_, by decide⟩
  exact ⟨3, ['d'], [2, 2], [(['d', '.', 't'], [1])], [2], by decide, by decide,
    ⟨[2], by decide⟩, Or.inr (by decide)⟩

/-- C1 amended (levels 3 and 4 only): if the destination existed with
content `A` and the write step crashes at any point, the destination
still holds `A` — the payload write targets a fresh temporary, never the
destination.  At level 2 this fails (see the counterexample): the old
content survives only in the temporary, not at the destination. -/
theorem put34_write_crash_preserves_destination (fs : FS) (dest : Str) (P A : Bytes)
    (toks : Nat → Str) (i : Nat) (ops : List Op) (s : FS)
    (hA : lookupFS fs dest = some A) :
    (put3Ops fs dest P toks i = some ops → IsWriteInterrupt fs ops s →
      lookupFS s dest = some A) ∧
    (put4Ops fs dest P toks i = some ops → IsWriteInterrupt fs ops s →
      lookupFS s dest = some A) := by
  constructor
  · intro hops hw
    cases htmp : tmpfile fs dest toks i with
    | none => rw [put3Ops, htmp] at hops; cases hops
    | some v =>
      obtain ⟨tmp, j, pr⟩ := v
      obtain ⟨-, k, -, -, hk, -⟩ := tmpfileGo_ok fs dest toks 10 i tmp j pr htmp
      have hprs := tmpfileGo_probes fs dest toks 10 i tmp j pr htmp
      have hne : tmp ≠ dest := hk ▸ tmpName_ne dest (toks k)
      rw [put3Ops, htmp] at hops
      simp only [Option.map_some'] at hops
      injection hops with hops
      subst hops
      have hT : ∀ p c, Op.write p c ∉ [Op.rename tmp dest] := by
        intro p c hmem
        simp at hmem
      rcases writeInterrupt_unique fs pr [Op.rename tmp dest] tmp P s hprs hT hw with
        hs | ⟨pfx, -, hs⟩
      · rw [hs]; exact hA
      · rw [hs, lookupFS_insertFS_ne _ _ _ _ hne]; exact hA
  · intro hops hw
    cases htmp1 : tmpfile fs dest toks i with
    | none => rw [put4Ops, htmp1] at hops; cases hops
    | some v1 =>
      obtain ⟨tmp1, j, pr1⟩ := v1
      obtain ⟨-, k1, -, -, hk1, -⟩ := tmpfileGo_ok fs dest toks 10 i tmp1 j pr1 htmp1
      have hprs1 := tmpfileGo_probes fs dest toks 10 i tmp1 j pr1 htmp1
      have hne1 : tmp1 ≠ dest := hk1 ▸ tmpName_ne dest (toks k1)
      rw [put4Ops, htmp1] at hops
      simp only [Option.some_bind] at hops
      cases htmp2 : tmpfile fs dest toks j with
      | none => rw [htmp2] at hops; cases hops
      | some v2 =>
        obtain ⟨tmp2, j2, pr2⟩ := v2
        have hprs2 := tmpfileGo_probes fs dest toks 10 j tmp2 j2 pr2 htmp2
        rw [htmp2] at hops
        simp only [Option.map_some'] at hops
        injection hops with hops
        have hS : ∀ op ∈ Op.stat dest :: pr1 ++ pr2, ∃ q, op = Op.stat q := by
          intro op hop
          rcases List.mem_cons.mp hop with h1 | h2
          · exact ⟨dest, h1⟩
          · rcases List.mem_append.mp h2 with h3 | h4
            · exact hprs1 op h3
            · exact hprs2 op h4
        have hshape : (Op.stat dest :: pr1 ++ pr2 ++ [Op.write tmp1 P] ++
            (if existsFS fs dest = true then [Op.rename dest tmp2] else []) ++
            [Op.rename tmp1 dest] ++
            (if existsFS fs dest = true then [Op.unlink tmp2] else [])) =
            (Op.stat dest :: pr1 ++ pr2) ++ (Op.write tmp1 P ::
              ((if existsFS fs dest = true then [Op.rename dest tmp2] else []) ++
               [Op.rename tmp1 dest] ++
               (if existsFS fs dest = true then [Op.unlink tmp2] else []))) := by
          simp
        rw [← hops, hshape] at hw
        have hT : ∀ p c, Op.write p c ∉
            ((if existsFS fs dest = true then [Op.rename dest tmp2] else []) ++
             [Op.rename tmp1 dest] ++
             (if existsFS fs dest = true then [Op.unlink tmp2] else [])) := by
          intro p c hmem
          rcases List.mem_append.mp hmem with h1 | h2
          · rcases List.mem_append.mp h1 with h3 | h4
            · by_cases hex : existsFS fs dest = true
              · rw [if_pos hex] at h3; simp at h3
              · rw [if_neg hex] at h3; simp at h3
            · simp at h4
          · by_cases hex : existsFS fs dest = true
            · rw [if_pos hex] at h2; simp at h2
            · rw [if_neg hex] at h2; simp at h2
        rcases writeInterrupt_unique fs _ _ tmp1 P s hS hT hw with hs | ⟨pfx, -, hs⟩
        · rw [hs]; exact hA
        · rw [hs, lookupFS_insertFS_ne _ _ _ _ hne1]; exact hA

/-- Witness for C1 amended: level 3, destination `d` holding `[1]`,
crash while writing payload `[2, 2]` to the temporary: `d` still holds
`[1]`. -/
theorem put34_write_crash_preserves_destination_witness :
    lookupFS [(['d', '.', 't'], [2]), (['d'], [1])] ['d'] = some [1] :=
  (put34_write_crash_preserves_destination [(['d'], [1])] ['d'] [2, 2] [1]
    (fun _ => ['t']) 0
    [Op.stat ['d', '.', 't'], Op.write ['d', '.', 't'] [2, 2], Op.rename ['d', '.', 't'] ['d']]
    [(['d', '.', 't'], [2]), (['d'], [1])] (by decide)).1 (by decide)
    ⟨1, ['d', '.', 't'], [2, 2], [(['d'], [1])], [2], by decide, by decide,
      ⟨[2], by decide⟩, Or.inr (by decide)⟩

/-- C3, refuted as stated: at level 4 the destination is renamed to the
second temporary before the first temporary is renamed onto it, so there
is an intermediate state — right after the fifth primitive — in which the
destination path is absent, even though every rename is atomic.
Concrete: destination `d` held `[1]`; after `rename d → d.b` the state
holds only the two temporaries and `d` does not exist. -/
theorem put4_destination_absent_cex :
    put4Ops [(['d'], [1])] ['d'] [2] (fun n => if n = 0 then ['a'] else ['b']) 0 =
      some [Op.stat ['d'], Op.stat ['d', '.', 'a'], Op.stat ['d', '.', 'b'],
        Op.write ['d', '.', 'a'] [2], Op.rename ['d'] ['d', '.', 'b'],
        Op.rename ['d', '.', 'a'] ['d'], Op.unlink ['d', '.', 'b']] ∧
    IsInterrupt [(['d'], [1])]
      [Op.stat ['d'], Op.stat ['d', '.', 'a'], Op.stat ['d', '.', 'b'],
        Op.write ['d', '.', 'a'] [2], Op.rename ['d'] ['d', '.', 'b'],
        Op.rename ['d', '.', 'a'] ['d'], Op.unlink ['d', '.', 'b']]
      [(['d', '.', 'b'], [1]), (['d', '.', 'a'], [2])] ∧
    existsFS [(['d', '.', 'b'], [1]), (['d', '.', 'a'], [2])] ['d'] = false := by
  exact ⟨by decide, Or.inl ⟨5, by decide⟩, by decide⟩

/-- C3 amended (level 3 only, destination initially present): at level 3
the destination exists at every intermediate point — every state some
prefix of the op sequence can reach, and every mid-write crash state.
At level 4 this fails between the two renames (see the counterexample). -/
theorem put3_destination_never_absent (fs : FS) (dest : Str) (P A : Bytes)
    (toks : Nat → Str) (i : Nat) (ops : List Op) (s : FS)
    (hA : lookupFS fs dest = some A)
    (hops : put3Ops fs dest P toks i = some ops)
    (hs : IsInterrupt fs ops s) :
    existsFS s dest = true := by
  cases htmp : tmpfile fs dest toks i with
  | none => rw [put3Ops, htmp] at hops; cases hops
  | some v =>
    obtain ⟨tmp, j, pr⟩ := v
    obtain ⟨-, k0, -, -, hk0, -⟩ := tmpfileGo_ok fs dest toks 10 i tmp j pr htmp
    have hprs := tmpfileGo_probes fs dest toks 10 i tmp j pr htmp
    have hne : tmp ≠ dest := hk0 ▸ tmpName_ne dest (toks k0)
    rw [put3Ops, htmp] at hops
    simp only [Option.map_some'] at hops
    injection hops with hops
    subst hops
    rcases hs with ⟨k, hrun⟩ | hw
    · rw [List.take_append_eq_append_take] at hrun
      rw [runOps_append, runOps_allStat fs _
        (fun op hop => hprs op (List.mem_of_mem_take hop))] at hrun
      simp only [Option.some_bind] at hrun
      rcases Nat.lt_or_ge (k - pr.length) 1 with hm | hm
      · have hm0 : k - pr.length = 0 := by omega
        rw [hm0] at hrun
        simp only [List.take_zero, runOps] at hrun
        injection hrun with hrun
        subst hrun
        rw [existsFS_true_iff]
        exact ⟨A, hA⟩
      · rcases Nat.lt_or_ge (k - pr.length) 2 with hm2 | hm2
        · have hm1 : k - pr.length = 1 := by omega
          rw [hm1] at hrun
          simp only [List.take_succ_cons, List.take_zero, runOps, applyOp] at hrun
          injection hrun with hrun
          subst hrun
          rw [existsFS_true_iff]
          exact ⟨A, by rw [lookupFS_insertFS_ne _ _ _ _ hne]; exact hA⟩
        · rw [List.take_of_length_le (by simp; omega)] at hrun
          simp only [runOps, applyOp, lookupFS_insertFS_self] at hrun
          injection hrun with hrun
          subst hrun
          rw [existsFS_true_iff]
          exact ⟨P, lookupFS_insertFS_self _ _ _⟩
    · have hT : ∀ p c, Op.write p c ∉ [Op.rename tmp dest] := by
        intro p c hmem
        simp at hmem
      rcases writeInterrupt_unique fs pr [Op.rename tmp dest] tmp P s hprs hT hw with
        h | ⟨pfx, -, h⟩
      · subst h
        rw [existsFS_true_iff]
        exact ⟨A, hA⟩
      · subst h
        rw [existsFS_true_iff]
        exact ⟨A, by rw [lookupFS_insertFS_ne _ _ _ _ hne]; exact hA⟩

/-- Witness for C3 amended: level 3 on a present destination, state after
the mid-run write of the temporary. -/
theorem put3_destination_never_absent_witness :
    existsFS [(['d', '.', 't'], [2, 2]), (['d'], [1])] ['d'] = true :=
  put3_destination_never_absent [(['d'], [1])] ['d'] [2, 2] [1] (fun _ => ['t']) 0
    [Op.stat ['d', '.', 't'], Op.write ['d', '.', 't'] [2, 2], Op.rename ['d', '.', 't'] ['d']]
    [(['d', '.', 't'], [2, 2]), (['d'], [1])] (by decide) (by decide)
    (Or.inl ⟨2, by decide⟩)

/-- A path that appears during a run but was absent initially must be the
target of some write or rename in the executed sequence. -/
theorem run_new_key (ops : List Op) : ∀ fs s : FS, ∀ q : Str,
    runOps fs ops = some s → lookupFS fs q = none → lookupFS s q ≠ none →
    ∃ op ∈ ops, (∃ c, op = Op.write q c) ∨ (∃ a, op = Op.rename a q) := by
  induction ops with
  | nil =>
    intro fs s q hrun hnew hq
    injection hrun with hrun
    subst hrun
    exact absurd hnew hq
  | cons op rest ih =>
    intro fs s q hrun hnew hq
    cases op with
    | stat p =>
      simp only [runOps, applyOp] at hrun
      obtain ⟨op', h1, h2⟩ := ih fs s q hrun hnew hq
      exact ⟨op', List.mem_cons_of_mem _ h1, h2⟩
    | write p c =>
      simp only [runOps, applyOp] at hrun
      by_cases hpq : p = q
      · subst hpq
        exact ⟨Op.write p c, List.mem_cons_self _ _, Or.inl ⟨c, rfl⟩⟩
      · have hnew' : lookupFS (insertFS fs p c) q = none := by
          rw [lookupFS_insertFS_ne _ _ _ _ hpq]; exact hnew
        obtain ⟨op', h1, h2⟩ := ih _ s q hrun hnew' hq
        exact ⟨op', List.mem_cons_of_mem _ h1, h2⟩
    | rename a b =>
      simp only [runOps, applyOp] at hrun
      cases hla : lookupFS fs a with
      | none => rw [hla] at hrun; cases hrun
      | some v =>
        rw [hla] at hrun
        by_cases hbq : b = q
        · subst hbq
          exact ⟨Op.rename a b, List.mem_cons_self _ _, Or.inr ⟨a, rfl⟩⟩
        · have hnew' : lookupFS (insertFS (eraseFS fs a) b v) q = none := by
            rw [lookupFS_insertFS_ne _ _ _ _ hbq, lookupFS_eraseFS]
            split
            · rfl
            · exact hnew
          obtain ⟨op', h1, h2⟩ := ih _ s q hrun hnew' hq
          exact ⟨op', List.mem_cons_of_mem _ h1, h2⟩
    | unlink p =>
      simp only [runOps, applyOp] at hrun
      by_cases hex : existsFS fs p = true
      · rw [if_pos hex] at hrun
        have hnew' : lookupFS (eraseFS fs p) q = none := by
          rw [lookupFS_eraseFS]
          split
          · rfl
          · exact hnew
        obtain ⟨op', h1, h2⟩ := ih _ s q hrun hnew' hq
        exact ⟨op', List.mem_cons_of_mem _ h1, h2⟩
      · rw [if_neg hex] at hrun
        cases hrun

/-- Same, for any interrupted state (prefix runs and mid-write crashes). -/
theorem interrupt_new_key (fs : FS) (ops : List Op) (s : FS) (q : Str)
    (hs : IsInterrupt fs ops s) (hnew : lookupFS fs q = none)
    (hq : lookupFS s q ≠ none) :
    ∃ op ∈ ops, (∃ c, op = Op.write q c) ∨ (∃ a, op = Op.rename a q) := by
  rcases hs with ⟨k, hrun⟩ | ⟨k, p, c, fsk, pfx, hk, hrun, hpfx, hsor⟩
  · obtain ⟨op', h1, h2⟩ := run_new_key (ops.take k) fs s q hrun hnew hq
    exact ⟨op', List.mem_of_mem_take h1, h2⟩
  · rcases hsor with hsf | hsf
    · subst hsf
      obtain ⟨op', h1, h2⟩ := run_new_key (ops.take k) fs s q hrun hnew hq
      exact ⟨op', List.mem_of_mem_take h1, h2⟩
    · subst hsf
      by_cases hpq : p = q
      · subst hpq
        exact ⟨Op.write p c, List.getElem?_mem hk, Or.inl ⟨c, rfl⟩⟩
      · have hq' : lookupFS fsk q ≠ none := by
          rw [lookupFS_insertFS_ne _ _ _ _ hpq] at hq
          exact hq
        obtain ⟨op', h1, h2⟩ := run_new_key (ops.take k) fs fsk q hrun hnew hq'
        exact ⟨op', List.mem_of_mem_take h1, h2⟩

/-- C4, refuted as stated: a level-4 invocation interrupted between the
two renames has written the first temporary and renamed the old
destination onto the second temporary, leaving TWO leftover temporaries
at once (and the destination absent). -/
theorem put4_two_leftover_temps_cex :
    put4Ops [(['d'], [1])] ['d'] [2] (fun n => if n = 0 then ['a'] else ['b']) 0 =
      some [Op.stat ['d'], Op.stat ['d', '.', 'a'], Op.stat ['d', '.', 'b'],
        Op.write ['d', '.', 'a'] [2], Op.rename ['d'] ['d', '.', 'b'],
        Op.rename ['d', '.', 'a'] ['d'], Op.unlink ['d', '.', 'b']] ∧
    IsInterrupt [(['d'], [1])]
      [Op.stat ['d'], Op.stat ['d', '.', 'a'], Op.stat ['d', '.', 'b'],
        Op.write ['d', '.', 'a'] [2], Op.rename ['d'] ['d', '.', 'b'],
        Op.rename ['d', '.', 'a'] ['d'], Op.unlink ['d', '.', 'b']]
      [(['d', '.', 'b'], [1]), (['d', '.', 'a'], [2])] ∧
    lookupFS [(['d'], [1])] ['d', '.', 'a'] = none ∧
    lookupFS [(['d'], [1])] ['d', '.', 'b'] = none ∧
    (['d', '.', 'a'] : Str) ≠ ['d'] ∧ (['d', '.', 'b'] : Str) ≠ ['d'] ∧
    (['d', '.', 'a'] : Str) ≠ ['d', '.', 'b'] ∧
    ¬ lookupFS [(['d', '.', 'b'], [1]), (['d', '.', 'a'], [2])] ['d', '.', 'a'] = none ∧
    ¬ lookupFS [(['d', '.', 'b'], [1]), (['d', '.', 'a'], [2])] ['d', '.', 'b'] = none := by
  exact ⟨by decide, Or.inl ⟨5, by decide⟩, by decide, by decide, by decide, by decide,
    by decide, by decide, by decide⟩

/-- C4 amended: (1) a put invocation of any level 0–4 that runs to
completion returns the payload length and leaves the filesystem equal to
the initial one with the destination replaced — in particular exactly one
entry at the destination and no leftover temporary; (2) an interrupted
invocation adds at most the temporaries it generated: none at levels 0–1,
one at levels 2–3, two at level 4; (3) at levels 3 and 4 the destination
never holds a partially written payload at any interrupted state — it is
the old content, the full payload, or (level 4 only, between the renames)
absent. -/
theorem put_invariants (level : Int) (fs fs' : FS) (dest : Str) (P : Bytes)
    (toks : Nat → Str) (i n : Nat) (ops pr pr1 pr2 : List Op) (s : FS)
    (tmp tmp1 tmp2 : Str) (j j2 : Nat) :
    (0 ≤ level → level ≤ 4 → put level fs dest P toks i = (fs', Except.ok n) →
      n = P.length ∧ ∀ q, lookupFS fs' q = lookupFS (insertFS fs dest P) q) ∧
    (IsInterrupt fs (put0Ops dest P) s →
      ∀ q, q ≠ dest → lookupFS fs q = none → lookupFS s q = none) ∧
    (IsInterrupt fs (put1Ops fs dest P) s →
      ∀ q, q ≠ dest → lookupFS fs q = none → lookupFS s q = none) ∧
    (tmpfile fs dest toks i = some (tmp, j, pr) → put2Ops fs dest P toks i = some ops →
      IsInterrupt fs ops s →
      ∀ q, q ≠ dest → q ≠ tmp → lookupFS fs q = none → lookupFS s q = none) ∧
    (tmpfile fs dest toks i = some (tmp, j, pr) → put3Ops fs dest P toks i = some ops →
      IsInterrupt fs ops s →
      ∀ q, q ≠ dest → q ≠ tmp → lookupFS fs q = none → lookupFS s q = none) ∧
    (tmpfile fs dest toks i = some (tmp1, j, pr1) → tmpfile fs dest toks j = some (tmp2, j2, pr2) →
      put4Ops fs dest P toks i = some ops → IsInterrupt fs ops s →
      ∀ q, q ≠ dest → q ≠ tmp1 → q ≠ tmp2 → lookupFS fs q = none → lookupFS s q = none) ∧
    (put3Ops fs dest P toks i = some ops → IsInterrupt fs ops s →
      lookupFS s dest = lookupFS fs dest ∨ lookupFS s dest = some P) ∧
    (put4Ops fs dest P toks i = some ops → IsInterrupt fs ops s →
      lookupFS s dest = lookupFS fs dest ∨ lookupFS s dest = some P ∨
        lookupFS s dest = none) := by
  refine ⟨?_, ?_, ?_, ?_, ?_, ?_, ?_, ?_⟩
  · -- success characterization, all levels
    intro h0 h4 hput
    have hlev : level = 0 ∨ level = 1 ∨ level = 2 ∨ level = 3 ∨ level = 4 := by omega
    rcases hlev with h | h | h | h | h <;> subst h
    · exact put0_ok fs fs' dest P toks i n hput
    · exact put1_ok fs fs' dest P toks i n hput
    · exact put2_ok fs fs' dest P toks i n hput
    · exact put3_ok fs fs' dest P toks i n hput
    · exact put4_ok fs fs' dest P toks i n hput
  · -- level 0: no leftover key besides the destination
    intro hint q hqd hnew
    by_contra hq
    obtain ⟨op, hop, hcr⟩ := interrupt_new_key fs _ s q hint hnew hq
    simp only [put0Ops, List.mem_singleton] at hop
    subst hop
    rcases hcr with ⟨c, hc⟩ | ⟨a, hc⟩
    · obtain ⟨hp, -⟩ := Op.write.injEq _ _ _ _ ▸ hc
      exact hqd hp.symm
    · cases hc
  · -- level 1: no leftover key besides the destination
    intro hint q hqd hnew
    by_contra hq
    obtain ⟨op, hop, hcr⟩ := interrupt_new_key fs _ s q hint hnew hq
    simp only [put1Ops] at hop
    rcases List.mem_cons.mp hop with h1 | h2
    · subst h1
      rcases hcr with ⟨c, hc⟩ | ⟨a, hc⟩ <;> cases hc
    · rcases List.mem_append.mp h2 with h3 | h4
      · by_cases hex : existsFS fs dest = true
        · rw [if_pos hex] at h3
          simp only [List.mem_singleton] at h3
          subst h3
          rcases hcr with ⟨c, hc⟩ | ⟨a, hc⟩ <;> cases hc
        · rw [if_neg hex] at h3
          simp at h3
      · simp only [List.mem_singleton] at h4
        subst h4
        rcases hcr with ⟨c, hc⟩ | ⟨a, hc⟩
        · obtain ⟨hp, -⟩ := Op.write.injEq _ _ _ _ ▸ hc
          exact hqd hp.symm
        · cases hc
  · -- level 2: at most the one temporary
    intro htmp hops hint q hqd hqt hnew
    by_contra hq
    rw [put2Ops, htmp] at hops
    simp only [Option.map_some'] at hops
    injection hops with hops
    subst hops
    have hprs := tmpfileGo_probes fs dest toks 10 i tmp j pr htmp
    obtain ⟨op, hop, hcr⟩ := interrupt_new_key fs _ s q hint hnew hq
    rcases List.mem_append.mp hop with h1 | h2
    · rcases List.mem_append.mp h1 with h3 | h4
      · rcases List.mem_append.mp h3 with h5 | h6
        · rcases List.mem_append.mp h5 with h7 | h8
          · obtain ⟨r, hr⟩ := hprs op h7
            subst hr
            rcases hcr with ⟨c, hc⟩ | ⟨a, hc⟩ <;> cases hc
          · simp only [List.mem_singleton] at h8
            subst h8
            rcases hcr with ⟨c, hc⟩ | ⟨a, hc⟩ <;> cases hc
        · by_cases hex : existsFS fs dest = true
          · rw [if_pos hex] at h6
            simp only [List.mem_singleton] at h6
            subst h6
            rcases hcr with ⟨c, hc⟩ | ⟨a, hc⟩
            · cases hc
            · obtain ⟨-, hb⟩ := Op.rename.injEq _ _ _ _ ▸ hc
              exact hqt hb.symm
          · rw [if_neg hex] at h6
            simp at h6
      · simp only [List.mem_singleton] at h4
        subst h4
        rcases hcr with ⟨c, hc⟩ | ⟨a, hc⟩
        · obtain ⟨hp, -⟩ := Op.write.injEq _ _ _ _ ▸ hc
          exact hqd hp.symm
        · cases hc
    · by_cases hex : existsFS fs dest = true
      · rw [if_pos hex] at h2
        simp only [List.mem_singleton] at h2
        subst h2
        rcases hcr with ⟨c, hc⟩ | ⟨a, hc⟩ <;> cases hc
      · rw [if_neg hex] at h2
        simp at h2
  · -- level 3: at most the one temporary
    intro htmp hops hint q hqd hqt hnew
    by_contra hq
    rw [put3Ops, htmp] at hops
    simp only [Option.map_some'] at hops
    injection hops with hops
    subst hops
    have hprs := tmpfileGo_probes fs dest toks 10 i tmp j pr htmp
    obtain ⟨op, hop, hcr⟩ := interrupt_new_key fs _ s q hint hnew hq
    rcases List.mem_append.mp hop with h1 | h2
    · obtain ⟨r, hr⟩ := hprs op h1
      subst hr
      rcases hcr with ⟨c, hc⟩ | ⟨a, hc⟩ <;> cases hc
    · rcases List.mem_cons.mp h2 with h3 | h4
      · subst h3
        rcases hcr with ⟨c, hc⟩ | ⟨a, hc⟩
        · obtain ⟨hp, -⟩ := Op.write.injEq _ _ _ _ ▸ hc
          exact hqt hp.symm
        · cases hc
      · simp only [List.mem_singleton] at h4
        subst h4
        rcases hcr with ⟨c, hc⟩ | ⟨a, hc⟩
        · cases hc
        · obtain ⟨-, hb⟩ := Op.rename.injEq _ _ _ _ ▸ hc
          exact hqd hb.symm
  · -- level 4: at most the two temporaries
    intro htmp1 htmp2 hops hint q hqd hqt1 hqt2 hnew
    by_contra hq
    rw [put4Ops, htmp1] at hops
    simp only [Option.some_bind] at hops
    rw [htmp2] at hops
    simp only [Option.map_some'] at hops
    injection hops with hops
    subst hops
    have hprs1 := tmpfileGo_probes fs dest toks 10 i tmp1 j pr1 htmp1
    have hprs2 := tmpfileGo_probes fs dest toks 10 j tmp2 j2 pr2 htmp2
    obtain ⟨op, hop, hcr⟩ := interrupt_new_key fs _ s q hint hnew hq
    rcases List.mem_append.mp hop with h1 | h2
    · rcases List.mem_append.mp h1 with h3 | h4
      · rcases List.mem_append.mp h3 with h5 | h6
        · rcases List.mem_append.mp h5 with h7 | h8
          · rcases List.mem_cons.mp h7 with h9 | h10
            · subst h9
              rcases hcr with ⟨c, hc⟩ | ⟨a, hc⟩ <;> cases hc
            · rcases List.mem_append.mp h10 with h11 | h12
              · obtain ⟨r, hr⟩ := hprs1 op h11
                subst hr
                rcases hcr with ⟨c, hc⟩ | ⟨a, hc⟩ <;> cases hc
              · obtain ⟨r, hr⟩ := hprs2 op h12
                subst hr
                rcases hcr with ⟨c, hc⟩ | ⟨a, hc⟩ <;> cases hc
          · simp only [List.mem_singleton] at h8
            subst h8
            rcases hcr with ⟨c, hc⟩ | ⟨a, hc⟩
            · obtain ⟨hp, -⟩ := Op.write.injEq _ _ _ _ ▸ hc
              exact hqt1 hp.symm
            · cases hc
        · by_cases hex : existsFS fs dest = true
          · rw [if_pos hex] at h6
            simp only [List.mem_singleton] at h6
            subst h6
            rcases hcr with ⟨c, hc⟩ | ⟨a, hc⟩
            · cases hc
            · obtain ⟨-, hb⟩ := Op.rename.injEq _ _ _ _ ▸ hc
              exact hqt2 hb.symm
          · rw [if_neg hex] at h6
            simp at h6
      · simp only [List.mem_singleton] at h4
        subst h4
        rcases hcr with ⟨c, hc⟩ | ⟨a, hc⟩
        · cases hc
        · obtain ⟨-, hb⟩ := Op.rename.injEq _ _ _ _ ▸ hc
          exact hqd hb.symm
    · by_cases hex : existsFS fs dest = true
      · rw [if_pos hex] at h2
        simp only [List.mem_singleton] at h2
        subst h2
        rcases hcr with ⟨c, hc⟩ | ⟨a, hc⟩ <;> cases hc
      · rw [if_neg hex] at h2
        simp at h2
  · -- level 3: the destination is never partially written
    intro hops hint
    cases htmp : tmpfile fs dest toks i with
    | none => rw [put3Ops, htmp] at hops; cases hops
    | some v =>
      obtain ⟨tmp', j', pr'⟩ := v
      obtain ⟨-, k0, -, -, hk0, -⟩ := tmpfileGo_ok fs dest toks 10 i tmp' j' pr' htmp
      have hprs := tmpfileGo_probes fs dest toks 10 i tmp' j' pr' htmp
      have hne : tmp' ≠ dest := hk0 ▸ tmpName_ne dest (toks k0)
      rw [put3Ops, htmp] at hops
      simp only [Option.map_some'] at hops
      injection hops with hops
      subst hops
      rcases hint with ⟨k, hrun⟩ | hw
      · rw [List.take_append_eq_append_take] at hrun
        rw [runOps_append, runOps_allStat fs _
          (fun op hop => hprs op (List.mem_of_mem_take hop))] at hrun
        simp only [Option.some_bind] at hrun
        rcases Nat.lt_or_ge (k - pr'.length) 1 with hm | hm
        · have hm0 : k - pr'.length = 0 := by omega
          rw [hm0] at hrun
          simp only [List.take_zero, runOps] at hrun
          injection hrun with hrun
          subst hrun
          exact Or.inl rfl
        · rcases Nat.lt_or_ge (k - pr'.length) 2 with hm2 | hm2
          · have hm1 : k - pr'.length = 1 := by omega
            rw [hm1] at hrun
            simp only [List.take_succ_cons, List.take_zero, runOps, applyOp] at hrun
            injection hrun with hrun
            subst hrun
            exact Or.inl (lookupFS_insertFS_ne _ _ _ _ hne)
          · rw [List.take_of_length_le (by simp; omega)] at hrun
            simp only [runOps, applyOp, lookupFS_insertFS_self] at hrun
            injection hrun with hrun
            subst hrun
            exact Or.inr (lookupFS_insertFS_self _ _ _)
      · have hT : ∀ p c, Op.write p c ∉ [Op.rename tmp' dest] := by
          intro p c hmem
          simp at hmem
        rcases writeInterrupt_unique fs pr' [Op.rename tmp' dest] tmp' P s hprs hT hw with
          h | ⟨pfx, -, h⟩
        · subst h
          exact Or.inl rfl
        · subst h
          exact Or.inl (lookupFS_insertFS_ne _ _ _ _ hne)
  · -- level 4: the destination is never partially written
    intro hops hint
    cases htmp1 : tmpfile fs dest toks i with
    | none => rw [put4Ops, htmp1] at hops; cases hops
    | some v1 =>
      obtain ⟨tmp1', j1', pr1'⟩ := v1
      obtain ⟨-, k1, -, -, hk1, -⟩ := tmpfileGo_ok fs dest toks 10 i tmp1' j1' pr1' htmp1
      have hprs1 := tmpfileGo_probes fs dest toks 10 i tmp1' j1' pr1' htmp1
      have hne1 : tmp1' ≠ dest := hk1 ▸ tmpName_ne dest (toks k1)
      rw [put4Ops, htmp1] at hops
      simp only [Option.some_bind] at hops
      cases htmp2 : tmpfile fs dest toks j1' with
      | none => rw [htmp2] at hops; cases hops
      | some v2 =>
        obtain ⟨tmp2', j2', pr2'⟩ := v2
        obtain ⟨-, k2, -, -, hk2, -⟩ := tmpfileGo_ok fs dest toks 10 j1' tmp2' j2' pr2' htmp2
        have hprs2 := tmpfileGo_probes fs dest toks 10 j1' tmp2' j2' pr2' htmp2
        have hne2 : tmp2' ≠ dest := hk2 ▸ tmpName_ne dest (toks k2)
        rw [htmp2] at hops
        simp only [Option.map_some'] at hops
        injection hops with hops
        have hS : ∀ op ∈ Op.stat dest :: pr1' ++ pr2', ∃ q, op = Op.stat q := by
          intro op hop
          rcases List.mem_cons.mp hop with h1 | h2
          · exact ⟨dest, h1⟩
          · rcases List.mem_append.mp h2 with h3 | h4
            · exact hprs1 op h3
            · exact hprs2 op h4
        by_cases hex : existsFS fs dest = true
        · rw [if_pos hex, if_pos hex] at hops
          obtain ⟨a, ha⟩ := (existsFS_true_iff fs dest).mp hex
          have hshape : (Op.stat dest :: pr1' ++ pr2' ++ [Op.write tmp1' P] ++
              [Op.rename dest tmp2'] ++ [Op.rename tmp1' dest] ++ [Op.unlink tmp2']) =
              (Op.stat dest :: pr1' ++ pr2') ++ (Op.write tmp1' P :: Op.rename dest tmp2' ::
                Op.rename tmp1' dest :: Op.unlink tmp2' :: []) := by
            simp
          rw [← hops, hshape] at hint
          rcases hint with ⟨k, hrun⟩ | hw
          · rw [List.take_append_eq_append_take] at hrun
            rw [runOps_append, runOps_allStat fs _
              (fun op hop => hS op (List.mem_of_mem_take hop))] at hrun
            simp only [Option.some_bind] at hrun
            have hg1d : lookupFS (insertFS fs tmp1' P) dest = some a := by
              rw [lookupFS_insertFS_ne _ _ _ _ hne1]; exact ha
            rcases Nat.lt_or_ge (k - (Op.stat dest :: pr1' ++ pr2').length) 1 with hm | hm
            · have hm0 : k - (Op.stat dest :: pr1' ++ pr2').length = 0 := by omega
              rw [hm0] at hrun
              simp only [List.take_zero, runOps] at hrun
              injection hrun with hrun
              subst hrun
              exact Or.inl rfl
            · rcases Nat.lt_or_ge (k - (Op.stat dest :: pr1' ++ pr2').length) 2 with hm2 | hm2
              · have hm1 : k - (Op.stat dest :: pr1' ++ pr2').length = 1 := by omega
                rw [hm1] at hrun
                simp only [List.take_succ_cons, List.take_zero, runOps, applyOp] at hrun
                injection hrun with hrun
                subst hrun
                exact Or.inl (lookupFS_insertFS_ne _ _ _ _ hne1)
              · rcases Nat.lt_or_ge (k - (Op.stat dest :: pr1' ++ pr2').length) 3 with hm3 | hm3
                · have hmv : k - (Op.stat dest :: pr1' ++ pr2').length = 2 := by omega
                  rw [hmv] at hrun
                  simp only [List.take_succ_cons, List.take_zero, runOps, applyOp,
                    hg1d] at hrun
                  injection hrun with hrun
                  subst hrun
                  exact Or.inr (Or.inr (by
                    rw [lookupFS_insertFS_ne _ _ _ _ hne2, lookupFS_eraseFS_self]))
                · have hg2 : lookupFS (insertFS (eraseFS (insertFS fs tmp1' P) dest)
                      tmp2' a) tmp1' = if tmp2' = tmp1' then some a else some P := by
                    by_cases h12 : tmp2' = tmp1'
                    · rw [if_pos h12, h12, lookupFS_insertFS_self]
                    · rw [if_neg h12, lookupFS_insertFS_ne _ _ _ _ h12,
                        lookupFS_eraseFS_ne _ _ _ (fun hh => hne1 hh.symm),
                        lookupFS_insertFS_self]
                  by_cases h12 : tmp2' = tmp1'
                  · rw [if_pos h12] at hg2
                    rcases Nat.lt_or_ge (k - (Op.stat dest :: pr1' ++ pr2').length) 4
                      with hm4 | hm4
                    · have hmv : k - (Op.stat dest :: pr1' ++ pr2').length = 3 := by omega
                      rw [hmv] at hrun
                      simp only [List.take_succ_cons, List.take_zero, runOps, applyOp,
                        hg1d, hg2] at hrun
                      injection hrun with hrun
                      subst hrun
                      rw [lookupFS_insertFS_self, ha]
                      exact Or.inl rfl
                    · rw [List.take_of_length_le (by
                        simp only [List.length_cons, List.length_append, List.length_nil] at hm4 ⊢
                        omega)] at hrun
                      have hu : existsFS (insertFS (eraseFS (insertFS (eraseFS
                          (insertFS fs tmp1' P) dest) tmp2' a) tmp1') dest a) tmp2' = false := by
                        rw [existsFS_false_iff, lookupFS_insertFS_ne _ _ _ _ hne2.symm, h12,
                          lookupFS_eraseFS_self]
                      simp only [runOps, applyOp, hg1d, hg2, hu, Bool.false_eq_true,
                        if_neg, not_false_iff] at hrun
                      cases hrun
                  · rw [if_neg h12] at hg2
                    rcases Nat.lt_or_ge (k - (Op.stat dest :: pr1' ++ pr2').length) 4
                      with hm4 | hm4
                    · have hmv : k - (Op.stat dest :: pr1' ++ pr2').length = 3 := by omega
                      rw [hmv] at hrun
                      simp only [List.take_succ_cons, List.take_zero, runOps, applyOp,
                        hg1d, hg2] at hrun
                      injection hrun with hrun
                      subst hrun
                      exact Or.inr (Or.inl (lookupFS_insertFS_self _ _ _))
                    · rw [List.take_of_length_le (by
                        simp only [List.length_cons, List.length_append, List.length_nil] at hm4 ⊢
                        omega)] at hrun
                      have hu : existsFS (insertFS (eraseFS (insertFS (eraseFS
                          (insertFS fs tmp1' P) dest) tmp2' a) tmp1') dest P) tmp2' = true := by
                        rw [existsFS_true_iff]
                        refine ⟨a, ?_⟩
                        rw [lookupFS_insertFS_ne _ _ _ _ hne2.symm,
                          lookupFS_eraseFS_ne _ _ _ (fun hh => h12 hh.symm),
                          lookupFS_insertFS_self]
                      simp only [runOps, applyOp, hg1d, hg2, hu, if_pos] at hrun
                      injection hrun with hrun
                      subst hrun
                      exact Or.inr (Or.inl (by
                        rw [lookupFS_eraseFS_ne _ _ _ hne2, lookupFS_insertFS_self]))
          · have hT : ∀ p c, Op.write p c ∉ (Op.rename dest tmp2' ::
                Op.rename tmp1' dest :: Op.unlink tmp2' :: []) := by
              intro p c hmem
              simp at hmem
            rcases writeInterrupt_unique fs _ _ tmp1' P s hS hT hw with h | ⟨pfx, -, h⟩
            · subst h
              exact Or.inl rfl
            · subst h
              exact Or.inl (lookupFS_insertFS_ne _ _ _ _ hne1)
        · rw [if_neg hex, if_neg hex] at hops
          have hshape : (Op.stat dest :: pr1' ++ pr2' ++ [Op.write tmp1' P] ++ [] ++
              [Op.rename tmp1' dest] ++ []) =
              (Op.stat dest :: pr1' ++ pr2') ++
                (Op.write tmp1' P :: Op.rename tmp1' dest :: []) := by
            simp
          rw [← hops, hshape] at hint
          rcases hint with ⟨k, hrun⟩ | hw
          · rw [List.take_append_eq_append_take] at hrun
            rw [runOps_append, runOps_allStat fs _
              (fun op hop => hS op (List.mem_of_mem_take hop))] at hrun
            simp only [Option.some_bind] at hrun
            rcases Nat.lt_or_ge (k - (Op.stat dest :: pr1' ++ pr2').length) 1 with hm | hm
            · have hm0 : k - (Op.stat dest :: pr1' ++ pr2').length = 0 := by omega
              rw [hm0] at hrun
              simp only [List.take_zero, runOps] at hrun
              injection hrun with hrun
              subst hrun
              exact Or.inl rfl
            · rcases Nat.lt_or_ge (k - (Op.stat dest :: pr1' ++ pr2').length) 2 with hm2 | hm2
              · have hm1 : k - (Op.stat dest :: pr1' ++ pr2').length = 1 := by omega
                rw [hm1] at hrun
                simp only [List.take_succ_cons, List.take_zero, runOps, applyOp] at hrun
                injection hrun with hrun
                subst hrun
                exact Or.inl (lookupFS_insertFS_ne _ _ _ _ hne1)
              · rw [List.take_of_length_le (by
                  simp only [List.length_cons, List.length_append, List.length_nil] at hm2 ⊢
                  omega)] at hrun
                simp only [runOps, applyOp, lookupFS_insertFS_self] at hrun
                injection hrun with hrun
                subst hrun
                exact Or.inr (Or.inl (lookupFS_insertFS_self _ _ _))
          · have hT : ∀ p c, Op.write p c ∉ (Op.rename tmp1' dest :: ([] : List Op)) := by
              intro p c hmem
              simp at hmem
            rcases writeInterrupt_unique fs _ _ tmp1' P s hS hT hw with h | ⟨pfx, -, h⟩
            · subst h
              exact Or.inl rfl
            · subst h
              exact Or.inl (lookupFS_insertFS_ne _ _ _ _ hne1)

/-- Witness for C4 amended: the level-3 no-partial-destination conjunct at
the concrete mid-write state of a level-3 run. -/
theorem put_invariants_witness :
    lookupFS [(['d', '.', 't'], [2, 2]), (['d'], [1])] ['d'] =
        lookupFS [(['d'], [1])] ['d'] ∨
      lookupFS [(['d', '.', 't'], [2, 2]), (['d'], [1])] ['d'] = some [2, 2] :=
  (put_invariants 3 [(['d'], [1])] [] ['d'] [2, 2] (fun _ => ['t']) 0 0
    [Op.stat ['d', '.', 't'], Op.write ['d', '.', 't'] [2, 2], Op.rename ['d', '.', 't'] ['d']]
    [] [] [] [(['d', '.', 't'], [2, 2]), (['d'], [1])] [] [] [] 0 0).2.2.2.2.2.2.1
    (by decide) (Or.inl ⟨2, by decide⟩)

/-! ### The temp-name generator's contract -/

/-- `str(Path)`: a path with directory `dir` and base name `base` prints
as `base` when the directory is `.`, else as `dir/base`. -/
def fullName (dir base : Str) : Str :=
  if dir = ['.'] then base else dir ++ '/' :: base

/-- The generated candidate stays in the target's directory: appending
the suffix to the full path string is the same as appending it to the
base name. -/
theorem tmpName_fullName (d b tok : Str) :
    tmpName (fullName d b) tok = fullName d (b ++ '.' :: tok) := by
  unfold fullName tmpName
  split
  · rfl
  · simp

/-- The generator gives up exactly when all `fuel` candidates exist. -/
theorem tmpfileGo_none (fs : FS) (dest : Str) (toks : Nat → Str) :
    ∀ fuel i, tmpfileGo fs dest toks i fuel = none ↔
      ∀ k, i ≤ k → k < i + fuel → existsFS fs (tmpName dest (toks k)) = true := by
  intro fuel
  induction fuel with
  | zero =>
    intro i
    constructor
    · intro _ k hk1 hk2
      omega
    · intro _
      rfl
  | succ fuel ih =>
    intro i
    simp only [tmpfileGo]
    by_cases hex : existsFS fs (tmpName dest (toks i)) = true
    · rw [if_pos hex]
      cases hrec : tmpfileGo fs dest toks (i + 1) fuel with
      | none =>
        constructor
        · intro _ k hk1 hk2
          by_cases hki : k = i
          · subst hki; exact hex
          · exact (ih (i + 1)).mp hrec k (by omega) (by omega)
        · intro _; rfl
      | some v =>
        obtain ⟨n', j', pr'⟩ := v
        constructor
        · intro h; cases h
        · intro hall
          exfalso
          have h2 : tmpfileGo fs dest toks (i + 1) fuel = none :=
            (ih (i + 1)).mpr (fun k hk1 hk2 => hall k (by omega) (by omega))
          rw [h2] at hrec
          cases hrec
    · rw [if_neg hex]
      constructor
      · intro h; cases h
      · intro hall
        exact absurd (hall i (le_refl i) (by omega)) hex

/-- C6, refuted as stated: two successive calls of the temp-name
generator for the same target return the same name when the random
token source happens to repeat — nothing in the code prevents it, since
the first name is not created before the second call.  Concrete: with a
constant token oracle both calls return `f.t`. -/
theorem tmpfile_repeat_token_collision_cex :
    tmpfile [] ['f'] (fun _ => ['t']) 0 =
      some (['f', '.', 't'], 1, [Op.stat ['f', '.', 't']]) ∧
    tmpfile [] ['f'] (fun _ => ['t']) 1 =
      some (['f', '.', 't'], 2, [Op.stat ['f', '.', 't']]) ∧
    (['f', '.', 't'] : Str) = ['f', '.', 't'] := by
  exact ⟨by decide, by decide, rfl⟩

/-- C6 amended: a successful `tmpfile` call returns a name that is absent
at generation time, differs from the target, lives in the target's
directory, and was found within the 10 randomized attempts; the call
fails (the `cannot create tmpfile?` exception) exactly when all 10
candidates collide; and two successive calls return distinct names
PROVIDED the random tokens they drew differ (with equal tokens they can
collide, as the counterexample shows). -/
theorem tmpfile_contract (fs : FS) (dest : Str) (toks : Nat → Str) (i : Nat)
    (name n2 : Str) (j j2 : Nat) (pr pr2 : List Op) :
    (tmpfile fs dest toks i = some (name, j, pr) →
      existsFS fs name = false ∧ name ≠ dest ∧
      (∃ k, i ≤ k ∧ k < i + 10 ∧ name = tmpName dest (toks k) ∧ j = k + 1) ∧
      (∀ d b, dest = fullName d b → ∃ tok, name = fullName d (b ++ '.' :: tok))) ∧
    (tmpfile fs dest toks i = none ↔
      ∀ k, i ≤ k → k < i + 10 → existsFS fs (tmpName dest (toks k)) = true) ∧
    (tmpfile fs dest toks i = some (name, j, pr) →
      tmpfile fs dest toks j = some (n2, j2, pr2) →
      toks (j - 1) ≠ toks (j2 - 1) → name ≠ n2) := by
  refine ⟨?_, tmpfileGo_none fs dest toks 10 i, ?_⟩
  · intro h
    obtain ⟨hfresh, k, hk1, hk2, hk3, hk4⟩ := tmpfileGo_ok fs dest toks 10 i name j pr h
    refine ⟨hfresh, hk3 ▸ tmpName_ne dest (toks k), ⟨k, hk1, hk2, hk3, hk4⟩, ?_⟩
    intro d b hdb
    exact ⟨toks k, by rw [hk3, hdb, tmpName_fullName]⟩
  · intro h1 h2 htok
    obtain ⟨-, k, -, -, hk3, hk4⟩ := tmpfileGo_ok fs dest toks 10 i name j pr h1
    obtain ⟨-, k', -, -, hk3', hk4'⟩ := tmpfileGo_ok fs dest toks 10 j n2 j2 pr2 h2
    have hkj : k = j - 1 := by omega
    have hkj' : k' = j2 - 1 := by omega
    intro heq
    apply htok
    rw [← hkj, ← hkj']
    exact tmpName_inj dest _ _ (by rw [← hk3, ← hk3']; exact heq)

/-- Witness for C6 amended: with two distinct tokens the two successive
calls return the distinct names `f.a` and `f.b`. -/
theorem tmpfile_contract_witness : (['f', '.', 'a'] : Str) ≠ ['f', '.', 'b'] :=
  (tmpfile_contract [] ['f'] (fun n => if n = 0 then ['a'] else ['b']) 0
    ['f', '.', 'a'] ['f', '.', 'b'] 1 2 [Op.stat ['f', '.', 'a']]
    [Op.stat ['f', '.', 'b']]).2.2 (by decide) (by decide) (by decide)

/-! ### Digest computation

The digest functions are parameterized by an abstract digest family
`dg : Str → Bytes → Str` (algorithm name, content ↦ hex string), standing
for hashlib / the SFTP check extension / the remote checksum utility,
which are assumed to agree for a fixed algorithm name. -/

/-- The class attribute `FS.HASH_ALGO`. -/
def HASH_ALGO : Str := "sha1".toList

/-- `FS.hash` (protocol-native attempt): per path, open and request a
digest with the chosen algorithm; a missing path (`IOError`) is `none`,
which the caller turns into the command fallback. -/
def hashProtocol (dg : Str → Bytes → Str) (algo : Str) (fs : FS) :
    List Str → Option (List (Str × Str))
  | [] => some []
  | p :: rest =>
    (lookupFS fs p).elim none fun c =>
      (hashProtocol dg algo fs rest).elim none fun r => some ((p, dg algo c) :: r)

/-- `FS.hash_local`: the same digest computed directly on local content. -/
def hash_local (dg : Str → Bytes → Str) (algo : Str) (lfs : FS) :
    List Str → Option (List (Str × Str))
  | [] => some []
  | p :: rest =>
    (lookupFS lfs p).elim none fun c =>
      (hash_local dg algo lfs rest).elim none fun r => some ((p, dg algo c) :: r)

/-- Python `bytes` whitespace. -/
def isWS (c : Char) : Bool :=
  c = ' ' || c = '\t' || c = '\n' || c = '\r' || c = '\x0b' || c = '\x0c'

/-- `line.strip()`. -/
def stripStr (s : Str) : Str :=
  ((s.dropWhile isWS).reverse.dropWhile isWS).reverse

/-- `line.strip().split(maxsplit=1)` unpacked into two values; `none` is
the unpacking `ValueError` on fewer than two fields. -/
def split1 (s : Str) : Option (Str × Str) :=
  let t := stripStr s
  let val := t.takeWhile (fun c => !isWS c)
  let rest := (t.dropWhile (fun c => !isWS c)).dropWhile isWS
  if val = [] ∨ rest = [] then none else some (val, rest)

/-- `res[fn] = val` on an ordered dict. -/
def setD (m : List (Str × Str)) (key val : Str) : List (Str × Str) :=
  if (m.find? (fun e => e.1 = key)).isSome then
    m.map (fun e => if e.1 = key then (e.1, val) else e)
  else m ++ [(key, val)]

/-- The parse loop of `hash_bycmd`: each output line is split into digest
and filename and stored; a malformed line raises. -/
def parseLines : List Str → List (Str × Str) → Option (List (Str × Str))
  | [], acc => some acc
  | l :: rest, acc =>
    (split1 l).elim none fun vf => parseLines rest (setD acc vf.2 vf.1)

/-- Error taxonomy of `hash_bycmd`: the `command not found` ValueError at
exit 127, the unpacking ValueError on a malformed line, and the generic
exception on other nonzero statuses with no parsed result. -/
inductive CmdErr where
  | commandNotFound
  | valueParseError
  | unknownCommand
deriving DecidableEq, Repr

/-- The exit-status / parsing logic of `FS.hash_bycmd` after the remote
command ran: 127 raises before parsing; then the output is parsed; exit 1
only logs; any other nonzero exit raises only when nothing was parsed. -/
def hash_bycmd_parse (lines : List Str) (exit_code : Int) :
    Except CmdErr (List (Str × Str)) :=
  if exit_code = 127 then Except.error CmdErr.commandNotFound
  else
    (parseLines lines []).elim (Except.error CmdErr.valueParseError) fun res =>
      if exit_code = 1 then Except.ok res
      else if exit_code ≠ 0 then
        (if res = [] then Except.error CmdErr.unknownCommand else Except.ok res)
      else Except.ok res

/-- The remote `sha1sum` invocation built by `hash_bycmd` (the command
name is hard-coded, so the digest it computes is always the `sha1` member
of the family): one `<digest>  <path>` line per existing path, exit 0
when all paths exist and 1 otherwise. -/
def sha1sumOutput (dg : Str → Bytes → Str) (fs : FS) (paths : List Str) : List Str × Int :=
  (paths.filterMap fun p => (lookupFS fs p).map fun c => dg "sha1".toList c ++ ' ' :: ' ' :: p,
   if paths.all (fun p => existsFS fs p) then 0 else 1)

/-- `FS.hash_bycmd` end to end against the modelled remote command. -/
def hash_bycmd_full (dg : Str → Bytes → Str) (fs : FS) (paths : List Str) :
    Except CmdErr (List (Str × Str)) :=
  hash_bycmd_parse (sha1sumOutput dg fs paths).1 (sha1sumOutput dg fs paths).2

theorem takeWhile_all_append (f : Char → Bool) (v l : Str)
    (hv : ∀ a ∈ v, f a = true) :
    (v ++ l).takeWhile f = v ++ l.takeWhile f := by
  induction v with
  | nil => rfl
  | cons a t ih =>
    simp only [List.cons_append, List.takeWhile_cons, hv a (List.mem_cons_self _ _), if_pos]
    rw [ih (fun b hb => hv b (List.mem_cons_of_mem _ hb))]

theorem dropWhile_all_append (f : Char → Bool) (v l : Str)
    (hv : ∀ a ∈ v, f a = true) :
    (v ++ l).dropWhile f = l.dropWhile f := by
  induction v with
  | nil => rfl
  | cons a t ih =>
    simp only [List.cons_append, List.dropWhile_cons, hv a (List.mem_cons_self _ _), if_pos]
    exact ih (fun b hb => hv b (List.mem_cons_of_mem _ hb))

/-- Splitting a well-formed `<digest>  <path>` line recovers the digest
and the path, provided neither contains whitespace. -/
theorem split1_digest_line (v p : Str) (hv : ∀ ch ∈ v, isWS ch = false) (hv0 : v ≠ [])
    (hp : ∀ ch ∈ p, isWS ch = false) (hp0 : p ≠ []) :
    split1 (v ++ ' ' :: ' ' :: p) = some (v, p) := by
  have hws : isWS ' ' = true := by decide
  cases v with
  | nil => exact absurd rfl hv0
  | cons vh vt =>
  cases hpr : p.reverse with
  | nil => exact absurd (List.reverse_eq_nil_iff.mp hpr) hp0
  | cons ph pt =>
  have hvh : isWS vh = false := hv vh (List.mem_cons_self _ _)
  have hph : isWS ph = false := by
    refine hp ph ?_
    have : ph ∈ p.reverse := by rw [hpr]; exact List.mem_cons_self _ _
    exact List.mem_reverse.mp this
  have hstrip : stripStr ((vh :: vt) ++ ' ' :: ' ' :: p) = (vh :: vt) ++ ' ' :: ' ' :: p := by
    unfold stripStr
    rw [List.cons_append, List.dropWhile_cons, if_neg (by rw [hvh]; exact Bool.false_ne_true)]
    have hrev : (vh :: vt ++ ' ' :: ' ' :: p).reverse =
        ph :: (pt ++ [' '] ++ [' '] ++ (vh :: vt).reverse) := by
      rw [show vh :: vt ++ ' ' :: ' ' :: p = (vh :: vt) ++ (' ' :: ' ' :: p) from rfl]
      rw [List.reverse_append, List.reverse_cons, List.reverse_cons, hpr]
      simp
    rw [← List.cons_append vh vt (' ' :: ' ' :: p), hrev, List.dropWhile_cons,
      if_neg (by rw [hph]; exact Bool.false_ne_true), ← hrev, List.reverse_reverse]
  unfold split1
  rw [hstrip]
  dsimp only []
  have hvtrue : ∀ a ∈ vh :: vt, (!isWS a) = true := by
    intro a ha
    rw [hv a ha]
    rfl
  have htake : ((vh :: vt) ++ ' ' :: ' ' :: p).takeWhile (fun c => !isWS c) = vh :: vt := by
    rw [takeWhile_all_append _ _ _ hvtrue, List.takeWhile_cons,
      if_neg (by rw [hws]; exact Bool.false_ne_true)]
    rw [List.append_nil]
  have hdrop : (((vh :: vt) ++ ' ' :: ' ' :: p).dropWhile (fun c => !isWS c)).dropWhile isWS
      = p := by
    rw [dropWhile_all_append _ _ _ hvtrue, List.dropWhile_cons,
      if_neg (by rw [hws]; exact Bool.false_ne_true), List.dropWhile_cons,
      if_pos hws, List.dropWhile_cons, if_pos hws]
    cases hpcase : p with
    | nil => exact absurd hpcase hp0
    | cons phd ptl =>
      rw [List.dropWhile_cons, if_neg ?_]
      rw [hp phd (by rw [hpcase]; exact List.mem_cons_self _ _)]
      exact Bool.false_ne_true
  rw [htake, hdrop]
  rw [if_neg ?_]
  rintro (h | h)
  · cases h
  · exact hp0 h

/-- C8: the exit-status contract of `hash_bycmd`: exit 127 raises the
command-not-found error exactly (and nothing else raises it); exit 1
returns the parsed results without raising whenever at least one digest
was parsed; any other nonzero exit raises the unknown-command error only
when the parsed result set is empty, otherwise the partial result is
returned. -/
theorem hash_bycmd_exit_status_contract (lines : List Str) (ec : Int)
    (res : List (Str × Str)) :
    (hash_bycmd_parse lines ec = Except.error CmdErr.commandNotFound ↔ ec = 127) ∧
    (parseLines lines [] = some res → res ≠ [] → ec = 1 →
      hash_bycmd_parse lines ec = Except.ok res) ∧
    (parseLines lines [] = some res → ec ≠ 0 → ec ≠ 1 → ec ≠ 127 →
      (res = [] → hash_bycmd_parse lines ec = Except.error CmdErr.unknownCommand) ∧
      (res ≠ [] → hash_bycmd_parse lines ec = Except.ok res)) := by
  refine ⟨⟨?_, ?_⟩, ?_, ?_⟩
  · intro h
    by_contra h127
    unfold hash_bycmd_parse at h
    rw [if_neg h127] at h
    cases hp : parseLines lines [] with
    | none =>
      rw [hp, Option.elim_none] at h
      injection h with h
      cases h
    | some r =>
      rw [hp, Option.elim_some] at h
      by_cases he1 : ec = 1
      · rw [if_pos he1] at h
        cases h
      · rw [if_neg he1] at h
        by_cases he0 : ec ≠ 0
        · rw [if_pos he0] at h
          by_cases hr : r = []
          · rw [if_pos hr] at h
            injection h with h
            cases h
          · rw [if_neg hr] at h
            cases h
        · rw [if_neg he0] at h
          cases h
  · intro h
    subst h
    unfold hash_bycmd_parse
    rw [if_pos rfl]
  · intro hp hres he1
    subst he1
    unfold hash_bycmd_parse
    rw [if_neg (by decide), hp, Option.elim_some, if_pos rfl]
  · intro hp h0 h1 h127
    unfold hash_bycmd_parse
    rw [if_neg h127, hp, Option.elim_some, if_neg h1, if_pos h0]
    constructor
    · intro hres
      rw [if_pos hres]
    · intro hres
      rw [if_neg hres]

/-- Witness for C8: exit status 1 with one parsed line returns the parsed
digest without raising. -/
theorem hash_bycmd_exit_status_contract_witness :
    hash_bycmd_parse ["aaaa  f".toList] 1 = Except.ok [(['f'], "aaaa".toList)] :=
  (hash_bycmd_exit_status_contract ["aaaa  f".toList] 1
    [(['f'], "aaaa".toList)]).2.1 (by decide) (by decide) rfl

/-- C7, refuted as stated: the protocol-native digest honours the
process-wide algorithm choice (`HASH_ALGO`), but the command fallback is
hard-coded to invoke `sha1sum`, so when the process-wide choice is
`md5` the two paths return different strings for identical content.
The abstract digest family here returns the algorithm's name, making the
two results visibly different. -/
theorem hash_algo_not_process_wide_cex :
    hashProtocol (fun algo _ => algo) "md5".toList [(['f'], [0])] [['f']] =
      some [(['f'], "md5".toList)] ∧
    hash_local (fun algo _ => algo) "md5".toList [(['f'], [0])] [['f']] =
      some [(['f'], "md5".toList)] ∧
    hash_bycmd_full (fun algo _ => algo) [(['f'], [0])] [['f']] =
      Except.ok [(['f'], "sha1".toList)] ∧
    ("md5".toList : Str) ≠ "sha1".toList := by
  exact ⟨by decide, by decide, rfl, by decide⟩

/-- C7 amended: with the DEFAULT process-wide algorithm (`HASH_ALGO =
"sha1"`, matching the hard-coded `sha1sum` of the fallback), the
protocol-native digest, the command-fallback digest and the local digest
all return the same string for the same path and content (digest strings
and path assumed whitespace-free and nonempty so the fallback's output
line parses back). -/
theorem hash_paths_agree_on_sha1 (dg : Str → Bytes → Str) (fs lfs : FS) (p : Str) (c : Bytes)
    (hrfs : lookupFS fs p = some c) (hlfs : lookupFS lfs p = some c)
    (hdg : ∀ ch ∈ dg HASH_ALGO c, isWS ch = false) (hdg0 : dg HASH_ALGO c ≠ [])
    (hp : ∀ ch ∈ p, isWS ch = false) (hp0 : p ≠ []) :
    hashProtocol dg HASH_ALGO fs [p] = some [(p, dg HASH_ALGO c)] ∧
    hash_bycmd_full dg fs [p] = Except.ok [(p, dg HASH_ALGO c)] ∧
    hash_local dg HASH_ALGO lfs [p] = some [(p, dg HASH_ALGO c)] := by
  have hsha : HASH_ALGO = "sha1".toList := rfl
  have hex : existsFS fs p = true := by
    rw [existsFS_true_iff]
    exact ⟨c, hrfs⟩
  refine ⟨?_, ?_, ?_⟩
  · simp only [hashProtocol, hrfs, Option.elim_some]
  · have hout : sha1sumOutput dg fs [p] = ([dg "sha1".toList c ++ ' ' :: ' ' :: p], 0) := by
      simp [sha1sumOutput, hrfs, hex]
    have hsplit : split1 (dg "sha1".toList c ++ ' ' :: ' ' :: p) =
        some (dg "sha1".toList c, p) :=
      split1_digest_line _ _ (hsha ▸ hdg) (hsha ▸ hdg0) hp hp0
    unfold hash_bycmd_full
    rw [hout]
    dsimp only []
    unfold hash_bycmd_parse
    rw [if_neg (by decide)]
    have hparse : parseLines [dg "sha1".toList c ++ ' ' :: ' ' :: p] [] =
        some [(p, dg "sha1".toList c)] := by
      simp only [parseLines, hsplit, Option.elim_some, setD, List.find?_nil,
        Option.isSome_none, Bool.false_eq_true, if_neg, not_false_iff, List.nil_append]
    rw [hparse, Option.elim_some, if_neg (by decide), if_neg (by decide)]
    rfl
  · simp only [hash_local, hlfs, Option.elim_some]

/-- Witness for C7 amended at a concrete digest family and content. -/
theorem hash_paths_agree_on_sha1_witness :
    hashProtocol (fun algo _ => algo) HASH_ALGO [(['f'], [0])] [['f']] =
      some [(['f'], (fun (algo : Str) (_ : Bytes) => algo) HASH_ALGO [0])] ∧
    hash_bycmd_full (fun algo _ => algo) [(['f'], [0])] [['f']] =
      Except.ok [(['f'], (fun (algo : Str) (_ : Bytes) => algo) HASH_ALGO [0])] ∧
    hash_local (fun algo _ => algo) HASH_ALGO [(['f'], [0])] [['f']] =
      some [(['f'], (fun (algo : Str) (_ : Bytes) => algo) HASH_ALGO [0])] :=
  hash_paths_agree_on_sha1 (fun algo _ => algo) [(['f'], [0])] [(['f'], [0])] ['f'] [0]
    (by decide) (by decide) (by decide) (by decide) (by decide) (by decide)

/-! ### Leftover-temporary discovery -/

/-- `FS.listtmp`: generate a fresh candidate, then keep the directory
entries whose length equals `len(str(name))` — the length of the
candidate's FULL PATH string, not of its bare name — and whose name
starts with the base name plus a dot; results are prefixed with the
directory. -/
def listtmp (fs : FS) (entries : List Str) (dir base : Str) (toks : Nat → Str) (i : Nat) :
    Option (List Str) :=
  (tmpfile fs (fullName dir base) toks i).elim none fun v =>
    some ((entries.filter fun e =>
      decide (e.length = v.1.length) && (base ++ ['.']).isPrefixOf e).map
      fun e => fullName dir e)

/-- C9, bug evidence: for the target `upload/hello.txt`, a directory
entry that IS a leftover temporary of that target — right length for a
generated name, right `hello.txt.` prefix — is NOT returned: the
filter compares the entry's bare-name length (30) against the length of
the candidate's full path string (37, including `upload/`), so for any
target with a directory component no genuine temporary ever matches. -/
theorem listtmp_misses_real_temp_bug :
    listtmp
      [(fullName "upload".toList ("hello.txt.".toList ++ List.replicate 20 'a'), [])]
      ["hello.txt.".toList ++ List.replicate 20 'a']
      "upload".toList "hello.txt".toList (fun _ => List.replicate 20 'b') 0 = some [] ∧
    ("hello.txt.".toList ++ List.replicate 20 'a').length =
      ("hello.txt".toList ++ '.' :: List.replicate 20 'b').length ∧
    ("hello.txt".toList ++ ['.']).isPrefixOf
      ("hello.txt.".toList ++ List.replicate 20 'a') = true := by
  exact ⟨by decide, by decide, by decide⟩

end Sftpovw
